import Mathlib

/-!
# Verification of the `mmod` dependency-analysis core

This file embeds the dependency-graph resolution engine of the `mmod`
repository (`src/mod/mod.rs` and `src/mod/version.rs`) as executable Lean
definitions and proves properties of the embedding.

The code under verification uses the external `semver` Rust crate
(`semver::Version`, `semver::VersionReq`) for version parsing and
requirement matching.  That crate is embedded here following its
documented Cargo-compatible semantics: a requirement is a comma-separated
list of comparators, a bare version is interpreted as a caret requirement,
and a pre-release version matches a comparator set only if some comparator
carries the same release triple together with a pre-release component.
-/

set_option maxRecDepth 4096

namespace Mmod

/-! ## Semantic versions (embedding of `semver::Version`) -/

/-- A pre-release identifier: numeric identifiers compare numerically and
    below alphanumeric ones, matching SemVer precedence. -/
inductive PreId where
  | num (n : Nat)
  | alpha (s : String)
deriving DecidableEq, Repr

/-- Embedding of `semver::Version`: `major.minor.patch` with optional
    pre-release and build-metadata identifier lists.  Numeric components are
    `Nat` (the crate uses `u64`; no claim exercises overflow). -/
structure SemVer where
  major : Nat
  minor : Nat
  patch : Nat
  pre : List PreId
  build : List String
deriving DecidableEq, Repr

/-- Byte-wise (code-point-wise) lexicographic comparison of char lists,
    matching Rust `str` ordering on ASCII. -/
def cmpCharList : List Char → List Char → Ordering
  | [], [] => .eq
  | [], _ :: _ => .lt
  | _ :: _, [] => .gt
  | a :: xs, b :: ys =>
    match compare a.toNat b.toNat with
    | .eq => cmpCharList xs ys
    | o => o

def cmpString (a b : String) : Ordering := cmpCharList a.data b.data

def cmpPreId : PreId → PreId → Ordering
  | .num a, .num b => compare a b
  | .num _, .alpha _ => .lt
  | .alpha _, .num _ => .gt
  | .alpha a, .alpha b => cmpString a b

/-- Lexicographic comparison of nonempty pre-release identifier lists;
    a strict prefix compares below. -/
def cmpPreList : List PreId → List PreId → Ordering
  | [], [] => .eq
  | [], _ :: _ => .lt
  | _ :: _, [] => .gt
  | a :: xs, b :: ys =>
    match cmpPreId a b with
    | .eq => cmpPreList xs ys
    | o => o

/-- `semver::Prerelease` ordering: the empty pre-release (a release version)
    compares above any nonempty pre-release. -/
def cmpPre (a b : List PreId) : Ordering :=
  match a, b with
  | [], [] => .eq
  | [], _ :: _ => .gt
  | _ :: _, [] => .lt
  | _ :: _, _ :: _ => cmpPreList a b

def natOfDigits (cs : List Char) : Nat :=
  cs.foldl (fun n c => n * 10 + (c.toNat - 48)) 0

/-- Comparison of two build-metadata identifiers: identifiers that are both
    numeric compare numerically (ties broken textually), numeric compares
    below alphanumeric, otherwise textual.  Build metadata is only a
    tie-breaker in `semver::Version`'s total order; no claim exercises it. -/
def cmpBuildId (a b : String) : Ordering :=
  if a.data.all Char.isDigit && b.data.all Char.isDigit then
    (compare (natOfDigits a.data) (natOfDigits b.data)).then (cmpString a b)
  else if a.data.all Char.isDigit then .lt
  else if b.data.all Char.isDigit then .gt
  else cmpString a b

def cmpBuildList : List String → List String → Ordering
  | [], [] => .eq
  | [], _ :: _ => .lt
  | _ :: _, [] => .gt
  | a :: xs, b :: ys =>
    match cmpBuildId a b with
    | .eq => cmpBuildList xs ys
    | o => o

/-- Empty build metadata compares below nonempty build metadata. -/
def cmpBuild (a b : List String) : Ordering :=
  match a, b with
  | [], [] => .eq
  | [], _ :: _ => .lt
  | _ :: _, [] => .gt
  | _ :: _, _ :: _ => cmpBuildList a b

/-- `Ord` for `semver::Version`: SemVer precedence with build metadata as a
    final tie-breaker. -/
def cmpSemVer (a b : SemVer) : Ordering :=
  (compare a.major b.major).then
    ((compare a.minor b.minor).then
      ((compare a.patch b.patch).then
        ((cmpPre a.pre b.pre).then (cmpBuild a.build b.build))))

def vLt (a b : SemVer) : Bool := cmpSemVer a b == .lt
def vGt (a b : SemVer) : Bool := cmpSemVer a b == .gt
def vLe (a b : SemVer) : Bool := !(cmpSemVer a b == .gt)
def vGe (a b : SemVer) : Bool := !(cmpSemVer a b == .lt)

def preLtB (a b : List PreId) : Bool := cmpPre a b == .lt
def preGtB (a b : List PreId) : Bool := cmpPre a b == .gt
def preGeB (a b : List PreId) : Bool := !(cmpPre a b == .lt)

/-! ## Version parsing (embedding of `semver::Version::parse`) -/

/-- Split a char list on every occurrence of `sep`, like Rust
    `str::split`: the result always has one more part than separators. -/
def splitOnC (sep : Char) : List Char → List (List Char)
  | [] => [[]]
  | c :: cs =>
    let r := splitOnC sep cs
    if c = sep then [] :: r
    else
      match r with
      | h :: t => (c :: h) :: t
      | [] => [[c]]

/-- Split at the first occurrence of `sep`, returning the part before it and
    (when the separator occurs) the part after it. -/
def splitFirstC (sep : Char) : List Char → List Char × Option (List Char)
  | [] => ([], none)
  | c :: cs =>
    if c = sep then ([], some cs)
    else
      let (pre1, rest) := splitFirstC sep cs
      (c :: pre1, rest)

/-- A valid numeric component: digits only, no leading zero (except "0"). -/
def validNum (cs : List Char) : Bool :=
  match cs with
  | [] => false
  | c :: rest => cs.all Char.isDigit && (c ≠ '0' || rest.isEmpty)

/-- Characters allowed in pre-release/build identifiers. -/
def isIdentC (c : Char) : Bool := c.isDigit || c.isAlpha || c == '-'

/-- Parse one pre-release identifier: nonempty, alphanumeric/hyphen;
    all-digit identifiers must have no leading zeros and become numeric. -/
def parsePreId (cs : List Char) : Option PreId :=
  if cs.isEmpty then none
  else if !cs.all isIdentC then none
  else if cs.all Char.isDigit then
    if validNum cs then some (.num (natOfDigits cs)) else none
  else some (.alpha (String.mk cs))

def parsePreIds (parts : List (List Char)) : Option (List PreId) :=
  match parts with
  | [] => some []
  | p :: ps => do
    let i ← parsePreId p
    let is_ ← parsePreIds ps
    pure (i :: is_)

/-- Parse one build identifier: nonempty, alphanumeric/hyphen (leading zeros
    are allowed in build metadata). -/
def parseBuildId (cs : List Char) : Option String :=
  if cs.isEmpty then none
  else if cs.all isIdentC then some (String.mk cs) else none

def parseBuildIds (parts : List (List Char)) : Option (List String) :=
  match parts with
  | [] => some []
  | p :: ps => do
    let i ← parseBuildId p
    let is_ ← parseBuildIds ps
    pure (i :: is_)

/-- Parse the `major.minor.patch[-pre]` part of a version. -/
def parseCore (cs : List Char) (build : List String) : Option SemVer :=
  let (nums, preOpt) := splitFirstC '-' cs
  match splitOnC '.' nums with
  | [ma, mi, pa] =>
    if validNum ma && validNum mi && validNum pa then
      match preOpt with
      | none =>
        some ⟨natOfDigits ma, natOfDigits mi, natOfDigits pa, [], build⟩
      | some pcs => do
        let pre ← parsePreIds (splitOnC '.' pcs)
        pure ⟨natOfDigits ma, natOfDigits mi, natOfDigits pa, pre, build⟩
    else none
  | _ => none

/-- Embedding of `semver::Version::parse`:
    `MAJOR.MINOR.PATCH[-PRERELEASE][+BUILD]`, strict (no extra whitespace,
    exactly three numeric components without leading zeros). -/
def parseVersion (s : String) : Option SemVer :=
  match splitOnC '+' s.data with
  | [core] => parseCore core []
  | [core, build] => do
    let b ← parseBuildIds (splitOnC '.' build)
    parseCore core b
  | _ => none

/-! ## Requirement matching (embedding of `semver::VersionReq`) -/

/-- Embedding of `semver::Op`. -/
inductive Op where
  | Exact
  | Greater
  | GreaterEq
  | Less
  | LessEq
  | Tilde
  | Caret
  | Wildcard
deriving DecidableEq, Repr

/-- Embedding of `semver::Comparator`: an operator applied to a possibly
    partial version (build metadata in a comparator is parsed and ignored by
    the crate, so it is not stored). -/
structure Comparator where
  op : Op
  major : Nat
  minor : Option Nat
  patch : Option Nat
  pre : List PreId
deriving DecidableEq, Repr

/-- `semver`'s `matches_exact`. -/
def matchesExact (c : Comparator) (v : SemVer) : Bool :=
  decide (v.major = c.major) &&
  (match c.minor with | none => true | some mi => decide (v.minor = mi)) &&
  (match c.patch with | none => true | some pa => decide (v.patch = pa)) &&
  decide (v.pre = c.pre)

/-- `semver`'s `matches_greater`. -/
def matchesGreater (c : Comparator) (v : SemVer) : Bool :=
  if v.major ≠ c.major then decide (v.major > c.major)
  else
    match c.minor with
    | none => false
    | some mi =>
      if v.minor ≠ mi then decide (v.minor > mi)
      else
        match c.patch with
        | none => false
        | some pa =>
          if v.patch ≠ pa then decide (v.patch > pa)
          else preGtB v.pre c.pre

/-- `semver`'s `matches_less`. -/
def matchesLess (c : Comparator) (v : SemVer) : Bool :=
  if v.major ≠ c.major then decide (v.major < c.major)
  else
    match c.minor with
    | none => false
    | some mi =>
      if v.minor ≠ mi then decide (v.minor < mi)
      else
        match c.patch with
        | none => false
        | some pa =>
          if v.patch ≠ pa then decide (v.patch < pa)
          else preLtB v.pre c.pre

/-- `semver`'s `matches_tilde`: patch-level changes are permitted. -/
def matchesTilde (c : Comparator) (v : SemVer) : Bool :=
  if v.major ≠ c.major then false
  else
    match c.minor with
    | none => true
    | some mi =>
      if v.minor ≠ mi then false
      else
        match c.patch with
        | none => preGeB v.pre c.pre
        | some pa =>
          if v.patch ≠ pa then decide (v.patch > pa)
          else preGeB v.pre c.pre

/-- `semver`'s `matches_caret`: changes that do not modify the left-most
    nonzero component are permitted. -/
def matchesCaret (c : Comparator) (v : SemVer) : Bool :=
  if v.major ≠ c.major then false
  else
    match c.minor with
    | none => true
    | some mi =>
      match c.patch with
      | none =>
        if c.major > 0 then decide (v.minor ≥ mi) else decide (v.minor = mi)
      | some pa =>
        if c.major > 0 then
          if v.minor ≠ mi then decide (v.minor > mi)
          else if v.patch ≠ pa then decide (v.patch > pa)
          else preGeB v.pre c.pre
        else if mi > 0 then
          if v.minor ≠ mi then false
          else if v.patch ≠ pa then decide (v.patch > pa)
          else preGeB v.pre c.pre
        else if v.minor ≠ mi ∨ v.patch ≠ pa then false
        else preGeB v.pre c.pre

/-- `semver`'s `matches_impl`: dispatch on the operator. -/
def matchesImpl (c : Comparator) (v : SemVer) : Bool :=
  match c.op with
  | .Exact | .Wildcard => matchesExact c v
  | .Greater => matchesGreater c v
  | .GreaterEq => matchesExact c v || matchesGreater c v
  | .Less => matchesLess c v
  | .LessEq => matchesExact c v || matchesLess c v
  | .Tilde => matchesTilde c v
  | .Caret => matchesCaret c v

/-- `semver`'s `pre_is_compatible`: a comparator admits pre-release versions
    only when it names the same release triple and has a pre-release itself. -/
def preCompatible (c : Comparator) (v : SemVer) : Bool :=
  decide (c.major = v.major) && decide (c.minor = some v.minor) &&
  decide (c.patch = some v.patch) && decide (c.pre ≠ [])

/-- `semver`'s `VersionReq::matches`: every comparator must match, and a
    pre-release version additionally needs some pre-compatible comparator. -/
def reqMatches (req : List Comparator) (v : SemVer) : Bool :=
  req.all (fun c => matchesImpl c v) &&
  (decide (v.pre = []) || req.any (fun c => preCompatible c v))

/-! ## Requirement parsing (embedding of `semver::VersionReq::from_str`) -/

def isWildcardC (c : Char) : Bool := c == '*' || c == 'x' || c == 'X'

def skipSpaces (cs : List Char) : List Char := cs.dropWhile (· == ' ')

/-- Parse a leading comparison operator, if any. -/
def parseOp : List Char → Option Op × List Char
  | '>' :: '=' :: r => (some .GreaterEq, r)
  | '<' :: '=' :: r => (some .LessEq, r)
  | '=' :: r => (some .Exact, r)
  | '>' :: r => (some .Greater, r)
  | '<' :: r => (some .Less, r)
  | '~' :: r => (some .Tilde, r)
  | '^' :: r => (some .Caret, r)
  | cs => (none, cs)

/-- Take a maximal run of digits. -/
def takeDigits (cs : List Char) : List Char × List Char :=
  (cs.takeWhile Char.isDigit, cs.dropWhile Char.isDigit)

/-- Take a maximal run of identifier characters and dots (the extent of a
    pre-release or build suffix). -/
def takeIdentRun (cs : List Char) : List Char × List Char :=
  (cs.takeWhile (fun c => isIdentC c || c == '.'),
   cs.dropWhile (fun c => isIdentC c || c == '.'))

/-- After a wildcard component, only a further `.*` (or `.x`/`.X`) component
    may follow. -/
def consumeTrailingWildcards : List Char → Option (List Char)
  | '.' :: c :: r => if isWildcardC c then consumeTrailingWildcards r else none
  | cs => some cs

/-- Parse the optional `-pre` / `+build` suffix of a comparator version.
    The crate validates build metadata but does not store it. -/
def parseCmpSuffix (cs : List Char) : Option (List PreId × List Char) :=
  match cs with
  | '-' :: r =>
    let (run, rest) := takeIdentRun r
    match parsePreIds (splitOnC '.' run) with
    | some pre =>
      match rest with
      | '+' :: r2 =>
        let (brun, rest2) := takeIdentRun r2
        match parseBuildIds (splitOnC '.' brun) with
        | some _ => some (pre, rest2)
        | none => none
      | _ => some (pre, rest)
    | none => none
  | '+' :: r =>
    let (brun, rest) := takeIdentRun r
    match parseBuildIds (splitOnC '.' brun) with
    | some _ => some ([], rest)
    | none => none
  | _ => some ([], cs)

/-- Parse one comparator: optional operator, then a possibly partial version
    where minor/patch positions may be wildcards.  A bare version (no
    operator) defaults to the caret operator, as in Cargo; an explicit
    operator combined with a wildcard component is rejected.  Numeric
    components are `Nat`, where the crate rejects values exceeding
    `u64::MAX`; no claim exercises overflow. -/
def parseComparator (cs : List Char) : Option (Comparator × List Char) :=
  let cs := skipSpaces cs
  let (opO, cs) := parseOp cs
  let cs := skipSpaces cs
  let (majDs, cs) := takeDigits cs
  if !validNum majDs then none
  else
    let major := natOfDigits majDs
    let defOp := opO.getD .Caret
    match cs with
    | '.' :: r =>
      match r with
      | c :: r2 =>
        if isWildcardC c then
          if opO.isSome then none
          else
            match consumeTrailingWildcards r2 with
            | some rest => some (⟨.Wildcard, major, none, none, []⟩, rest)
            | none => none
        else
          let (minDs, r2) := takeDigits r
          if !validNum minDs then none
          else
            let minor := natOfDigits minDs
            match r2 with
            | '.' :: r3 =>
              match r3 with
              | c2 :: r4 =>
                if isWildcardC c2 then
                  if opO.isSome then none
                  else some (⟨.Wildcard, major, some minor, none, []⟩, r4)
                else
                  let (patDs, r4) := takeDigits r3
                  if !validNum patDs then none
                  else
                    match parseCmpSuffix r4 with
                    | some (pre, rest) =>
                      some (⟨defOp, major, some minor, some (natOfDigits patDs), pre⟩,
                            rest)
                    | none => none
              | [] => none
            | _ => some (⟨defOp, major, some minor, none, []⟩, r2)
      | [] => none
    | _ => some (⟨defOp, major, none, none, []⟩, cs)

/-- Parse a comma-separated comparator list; `fuel` bounds the number of
    comparators (each loop iteration consumes at least one character). -/
def parseReqAux : Nat → List Char → Option (List Comparator)
  | 0, _ => none
  | Nat.succ fuel, cs =>
    match parseComparator cs with
    | none => none
    | some (c, rest) =>
      match skipSpaces rest with
      | [] => some [c]
      | ',' :: r => do
        let more ← parseReqAux fuel r
        pure (c :: more)
      | _ => none

/-- Embedding of `semver::VersionReq::from_str`.  The lone requirement `*`
    parses to the empty comparator list (`VersionReq::STAR`). -/
def parseReq (s : String) : Option (List Comparator) :=
  let cs := skipSpaces s.data
  if cs.isEmpty then none
  else if cs = ['*'] then some []
  else parseReqAux (s.data.length + 1) s.data

/-! ## Version constraints (embedding of `src/mod/version.rs`) -/

/-- Embedding of `VersionBound` from `version.rs`. -/
inductive VersionBound where
  | Inclusive (v : SemVer)
  | Exclusive (v : SemVer)
  | Unbounded
deriving DecidableEq, Repr

/-- Embedding of `VersionConstraint` from `version.rs`. -/
inductive VersionConstraint where
  | Bracketed (lo hi : VersionBound)
  | Semver (req : List Comparator)
deriving DecidableEq, Repr

def isWSC (c : Char) : Bool := c == ' ' || c == '\t' || c == '\n' || c == '\r'

/-- Rust `str::trim` strips Unicode whitespace; this embedding trims the
    ASCII subset (space, tab, newline, carriage return), diverging only on
    strings padded with non-ASCII whitespace. -/
def trimChars (cs : List Char) : List Char :=
  ((cs.dropWhile isWSC).reverse.dropWhile isWSC).reverse

/-- Embedding of `parse_bound` from `version.rs`: an empty (trimmed) bound
    is unbounded, otherwise the bound version must parse. -/
def parseBound (cs : List Char) (inclusive : Bool) : Option VersionBound :=
  let cs := trimChars cs
  if cs.isEmpty then some .Unbounded
  else
    (parseVersion (String.mk cs)).map
      (fun v => if inclusive then .Inclusive v else .Exclusive v)

/-- Embedding of `VersionConstraint::from_str`: try `semver::VersionReq`
    first, then the bracketed grammar `[`/`(` lower `,` upper `]`/`)`.
    CAUTION: on the one-character input `[` or `(` the Rust slice
    `s[1..s.len()-1]` (version.rs line 31) has start index 1 past end
    index 0 and panics, aborting the process; this embedding collapses
    that abort into a parse failure.  `vcFromStrPanics` below marks the
    exact inputs on which the Rust function panics instead of
    returning. -/
def vcFromStr (s : String) : Option VersionConstraint :=
  let cs := trimChars s.data
  match parseReq (String.mk cs) with
  | some req => some (.Semver req)
  | none =>
    match cs with
    | c :: rest =>
      if c = '[' ∨ c = '(' then
        let inner := rest.dropLast
        match splitOnC ',' inner with
        | [lo, hi] => do
          let loB ← parseBound lo (c = '[')
          let hiB ← parseBound hi (cs.getLast? = some ']')
          pure (.Bracketed loB hiB)
        | _ => none
      else none
    | [] => none

/-- The condition under which the Rust `VersionConstraint::from_str`
    panics instead of returning: `semver::VersionReq` parsing fails and the
    trimmed input is the single character `[` or `(`, so the slice
    `s[1..s.len()-1]` (version.rs line 31) is `s[1..0]` and aborts the
    process.  (A multi-byte trailing character after `[`/`(` would also
    break the slice on a char boundary; no ASCII input reaches that
    case.) -/
def vcFromStrPanics (s : String) : Bool :=
  let cs := trimChars s.data
  (parseReq (String.mk cs)).isNone &&
    (decide (cs = ['[']) || decide (cs = ['(']))

/-- Embedding of `VersionConstraint::matches`. -/
def vcMatches (c : VersionConstraint) (v : SemVer) : Bool :=
  match c with
  | .Bracketed lo hi =>
    (match lo with
     | .Inclusive m => vGe v m
     | .Exclusive m => vGt v m
     | .Unbounded => true) &&
    (match hi with
     | .Inclusive m => vLe v m
     | .Exclusive m => vLt v m
     | .Unbounded => true)
  | .Semver req => reqMatches req v

/-! ## Data model (embedding of `src/mod/mod.rs`) -/

/-- Embedding of `Platform`. -/
inductive Platform where
  | Forge
  | Fabric
  | NeoForge
  | Quilt
  | Unknown (s : String)
deriving DecidableEq, Repr

/-- Embedding of `DependencyVersionRange`. -/
inductive DependencyVersionRange where
  | Single (s : String)
  | Multiple (v : List String)
deriving DecidableEq, Repr

/-- Embedding of `ModDependency`. -/
structure ModDependency where
  mod_id : String
  version_range : DependencyVersionRange
  mandatory : Bool
deriving DecidableEq, Repr

/-- Embedding of `ModMetadata`. -/
structure ModMetadata where
  mod_id : String
  version : String
  name : Option String
  description : Option String
  authors : List String
  file_name : String
  platform : Platform
  dependencies : List ModDependency
deriving DecidableEq, Repr

/-- Embedding of `DependencyError`.  Field order follows the Rust tuple
    variants. -/
inductive DependencyError where
  | UnsupportedPlatform (platform : Platform) (file_names : List String)
  | MissingDependency (mod_id file_name dependency_id : String)
  | VersionConflict (file_name mod_id required found found_name : String)
  | CircularDependency (chain : List String)
  | InvalidVersionFormat (mod_id file_name version_str : String)
deriving DecidableEq, Repr

/-- The reserved pseudo-dependency ids skipped unconditionally by
    `resolve_mod`. -/
def pseudoIds : List String :=
  ["minecraft", "forge", "fabricloader", "fabric-resource-loader-v0", "java",
   "neoforge"]

/-- The id-to-record map built by `resolve_dependencies`
    (`HashMap` collected from the partition: a later record with the same id
    overwrites an earlier one). -/
def lookupMod (mods : List ModMetadata) (id : String) : Option ModMetadata :=
  mods.reverse.find? (fun m => decide (m.mod_id = id))

/-- The mutable state threaded through `resolve_mod`: the `resolved` set,
    the `unresolved` (in-progress) set, the output order, the path trace and
    the accumulated fault list. -/
structure ResolveState where
  resolved : List String
  unresolved : List String
  ordered : List ModMetadata
  path : List String
  errors : List DependencyError
deriving Repr

/-- `HashSet::insert` modelled on lists (no duplicate is added). -/
def insertSet (a : String) (s : List String) : List String :=
  if a ∈ s then s else a :: s

/-- String-joining used for the `required` text of a version-conflict fault
    (`Vec::join(" || ")`). -/
def joinSep (sep : String) : List String → String
  | [] => ""
  | [s] => s
  | s :: rest => s ++ sep ++ joinSep sep rest

/-- The `required` display text of a conflict fault (lines 265–268). -/
def requiredDisplay : DependencyVersionRange → String
  | .Single s => s
  | .Multiple v => joinSep " || " v

/-- The per-alternative loop of the `Multiple` arm (lines 243–261): stop at
    the first alternative that parses and matches, record an
    invalid-version-format fault for every alternative tried that fails to
    parse. -/
def checkAlternatives (v : SemVer) (m : ModMetadata) (depId : String) :
    List String → Bool × List DependencyError
  | [] => (false, [])
  | s :: rest =>
    match vcFromStr s with
    | some c =>
      if vcMatches c v then (true, [])
      else checkAlternatives v m depId rest
    | none =>
      ((checkAlternatives v m depId rest).1,
       .InvalidVersionFormat depId m.file_name s ::
         (checkAlternatives v m depId rest).2)

/-- The `matched` flag the version-range evaluation of an edge computes. -/
def rangeMatched (dep : ModDependency) (v : SemVer) : Bool :=
  match dep.version_range with
  | .Single s =>
    match vcFromStr s with
    | some c => vcMatches c v
    | none => false
  | .Multiple ss =>
    ss.any (fun s =>
      match vcFromStr s with
      | some c => vcMatches c v
      | none => false)

/-- The matching loop over a version range: the `version_matched` flag and
    the invalid-version-format faults recorded along the way
    (lines 226–262). -/
def rangeCheck (v : SemVer) (m : ModMetadata) (dep : ModDependency) :
    Bool × List DependencyError :=
  match dep.version_range with
  | .Single s =>
    match vcFromStr s with
    | some c => (vcMatches c v, ([] : List DependencyError))
    | none => (false, [.InvalidVersionFormat dep.mod_id m.file_name s])
  | .Multiple ss => checkAlternatives v m dep.mod_id ss

/-- The version-checking block of `resolve_mod` (lines 224–276): the faults
    appended for one edge whose target record `depMod` is present and has
    parsed version `v`. -/
def checkDepVersion (m depMod : ModMetadata) (dep : ModDependency)
    (v : SemVer) : List DependencyError :=
  if (rangeCheck v m dep).1 then (rangeCheck v m dep).2
  else
    (rangeCheck v m dep).2 ++ [.VersionConflict m.file_name dep.mod_id
      (requiredDisplay dep.version_range) depMod.version depMod.file_name]

/-- One iteration of the dependency loop of `resolve_mod` (lines 182–281),
    parametrised by the recursive call `recur`. -/
def stepDep (recur : ModMetadata → ResolveState → Option ResolveState)
    (mods : List ModMetadata) (m : ModMetadata) (dep : ModDependency)
    (st : ResolveState) : Option ResolveState :=
  if dep.mod_id ∈ pseudoIds then some st
  else if dep.mod_id ∈ st.resolved then some st
  else if dep.mod_id ∈ st.unresolved then
    some { st with
      errors := st.errors ++ [.CircularDependency (st.path ++ [dep.mod_id])] }
  else
    match lookupMod mods dep.mod_id with
    | none =>
      if dep.mandatory then
        some { st with
          errors := st.errors ++
            [.MissingDependency m.mod_id m.file_name dep.mod_id] }
      else some st
    | some depMod =>
      match parseVersion depMod.version with
      | none =>
        some { st with
          errors := st.errors ++
            [.InvalidVersionFormat depMod.mod_id depMod.file_name
              depMod.version] }
      | some v =>
        match recur depMod
            { st with
              errors := st.errors ++ checkDepVersion m depMod dep v,
              path := st.path ++ [dep.mod_id] } with
        | none => none
        | some st2 => some { st2 with path := st2.path.dropLast }

/-- The dependency loop of `resolve_mod`, in declaration order. -/
def stepDeps (recur : ModMetadata → ResolveState → Option ResolveState)
    (mods : List ModMetadata) (m : ModMetadata) :
    List ModDependency → ResolveState → Option ResolveState
  | [], st => some st
  | dep :: deps, st =>
    match stepDep recur mods m dep st with
    | none => none
    | some st1 => stepDeps recur mods m deps st1

/-- Embedding of `resolve_mod` (lines 171–286).  The Rust function recurses
    on the dependency graph; here a fuel parameter makes the recursion
    structural, and `resolveMod_isSome` below shows fuel
    `mods.length + 1` never runs out, so the embedding is total exactly
    where the Rust recursion terminates. -/
def resolveMod (mods : List ModMetadata) :
    Nat → ModMetadata → ResolveState → Option ResolveState
  | 0, _, _ => none
  | Nat.succ fuel, m, st =>
    match stepDeps (resolveMod mods fuel) mods m m.dependencies
        { st with unresolved := insertSet m.mod_id st.unresolved } with
    | none => none
    | some st1 =>
      some { st1 with
        resolved := insertSet m.mod_id st1.resolved,
        unresolved := st1.unresolved.erase m.mod_id,
        ordered := st1.ordered ++ [m] }

def initState : ResolveState := ⟨[], [], [], [], []⟩

/-- The top-level loop of `resolve_dependencies` (lines 150–162): walk every
    not-yet-resolved record; each walk gets a fresh in-progress set and a
    fresh path seeded with the record's id. -/
def resolveAll (mods : List ModMetadata) (fuel : Nat) :
    List ModMetadata → ResolveState → Option ResolveState
  | [], st => some st
  | m :: rest, st =>
    if m.mod_id ∈ st.resolved then resolveAll mods fuel rest st
    else
      match resolveMod mods fuel m
          { st with unresolved := [], path := [m.mod_id] } with
      | none => none
      | some st1 => resolveAll mods fuel rest st1

/-- Embedding of `resolve_dependencies` (lines 138–169). -/
def resolve_dependencies (mods : List ModMetadata) :
    Option (Except (List DependencyError) (List ModMetadata)) :=
  match resolveAll mods (mods.length + 1) mods initState with
  | none => none
  | some st =>
    some (if st.errors.isEmpty then .ok st.ordered else .error st.errors)

/-! ## Aggregator (embedding of `analyze_dependencies`) -/

/-- The dispatch of `analyze_dependencies` (lines 114–128): `Forge`,
    `Fabric` and `NeoForge` partitions go to the resolver, everything else is
    reported unsupported. -/
def isResolvable : Platform → Bool
  | .Forge => true
  | .Fabric => true
  | .NeoForge => true
  | _ => false

/-- One ecosystem partition: the batch records carrying platform `p`, in
    input order (the Rust `HashMap` grouping preserves relative order inside
    a group). -/
def groupOf (mods : List ModMetadata) (p : Platform) : List ModMetadata :=
  mods.filter (fun m => decide (m.platform = p))

/-- The distinct platforms of a batch in order of first appearance.  (Rust
    iterates the grouping `HashMap` in an unspecified order; the relative
    order between partitions is unspecified by the spec, and first-appearance
    order is the deterministic representative used here.) -/
def platformsAux (seen : List Platform) : List ModMetadata → List Platform
  | [] => []
  | m :: rest =>
    if m.platform ∈ seen then platformsAux seen rest
    else m.platform :: platformsAux (m.platform :: seen) rest

def platformsOf (mods : List ModMetadata) : List Platform :=
  platformsAux [] mods

/-- The per-partition body of the aggregation loop (lines 114–128),
    returning the partition's contribution to the combined ordering and to
    the shared fault collection. -/
def analyzeGroup (group : List ModMetadata) (p : Platform) :
    Option (List ModMetadata × List DependencyError) :=
  if isResolvable p then
    match resolve_dependencies group with
    | none => none
    | some (.ok r) => some (r, [])
    | some (.error es) => some ([], es)
  else some ([], [.UnsupportedPlatform p (group.map (·.file_name))])

def analyzeGroups (mods : List ModMetadata) :
    List Platform → Option (List ModMetadata × List DependencyError)
  | [] => some ([], [])
  | p :: ps =>
    match analyzeGroup (groupOf mods p) p, analyzeGroups mods ps with
    | some (r1, e1), some (r2, e2) => some (r1 ++ r2, e1 ++ e2)
    | _, _ => none

/-- Embedding of `analyze_dependencies` (lines 100–136). -/
def analyze_dependencies (mods : List ModMetadata) :
    Option (Except (List DependencyError) (List ModMetadata)) :=
  match analyzeGroups mods (platformsOf mods) with
  | none => none
  | some (result, errs) =>
    some (if errs.isEmpty then .ok result else .error errs)

/-- The faults one partition contributes to the shared fault collection. -/
def groupFaults (group : List ModMetadata) (p : Platform) :
    Option (List DependencyError) :=
  if isResolvable p then
    match resolve_dependencies group with
    | none => none
    | some (.ok _) => some []
    | some (.error es) => some es
  else some [.UnsupportedPlatform p (group.map (·.file_name))]

def faultsOfPlatforms (mods : List ModMetadata) :
    List Platform → Option (List DependencyError)
  | [] => some []
  | p :: ps =>
    match groupFaults (groupOf mods p) p, faultsOfPlatforms mods ps with
    | some a, some b => some (a ++ b)
    | _, _ => none

/-- Every fault `analyze_dependencies` discovers, across all partitions, in
    partition-then-discovery order. -/
def collectFaults (mods : List ModMetadata) : Option (List DependencyError) :=
  faultsOfPlatforms mods (platformsOf mods)

/-! ## Basic lemmas about the walk -/

theorem mem_insertSet {x a : String} {s : List String} :
    x ∈ insertSet a s ↔ x = a ∨ x ∈ s := by
  unfold insertSet
  split
  · constructor
    · exact fun h => Or.inr h
    · rintro (rfl | h) <;> assumption
  · exact List.mem_cons

theorem insertSet_of_not_mem {a : String} {s : List String} (h : a ∉ s) :
    insertSet a s = a :: s := by
  unfold insertSet
  exact if_neg h

theorem lookupMod_mem {mods : List ModMetadata} {id : String}
    {m : ModMetadata} (h : lookupMod mods id = some m) :
    m ∈ mods ∧ m.mod_id = id := by
  unfold lookupMod at h
  refine ⟨List.mem_reverse.mp (List.mem_of_find?_eq_some h), ?_⟩
  have := List.find?_some h
  exact of_decide_eq_true this

/-- A fault is not an unsupported-platform fault. -/
def NotUnsup (e : DependencyError) : Prop :=
  ∀ p fs, e ≠ .UnsupportedPlatform p fs

theorem checkAlternatives_notUnsup {v : SemVer} {m : ModMetadata}
    {depId : String} {ss : List String} :
    ∀ e ∈ (checkAlternatives v m depId ss).2, NotUnsup e := by
  induction ss with
  | nil => intro e he; simp [checkAlternatives] at he
  | cons s rest ih =>
    intro e he
    unfold checkAlternatives at he
    rcases h : vcFromStr s with _ | c
    · rw [h] at he
      rcases List.mem_cons.mp he with rfl | he2
      · intro p fs hne; cases hne
      · exact ih e he2
    · rw [h] at he
      split at he
      · split at he
        · simp at he
        · exact ih e he
      · rename_i heq
        exact Option.noConfusion heq

theorem rangeCheck_notUnsup {v : SemVer} {m : ModMetadata}
    {dep : ModDependency} :
    ∀ e ∈ (rangeCheck v m dep).2, NotUnsup e := by
  intro e he
  obtain ⟨did, vr, mand⟩ := dep
  rcases vr with s | ss
  · simp only [rangeCheck] at he
    rcases hc : vcFromStr s with _ | c
    · rw [hc] at he
      rcases List.mem_singleton.mp he with rfl
      intro p fs hne; cases hne
    · rw [hc] at he
      split at he
      · simp at he
      · rename_i heq
        exact Option.noConfusion heq
  · simp only [rangeCheck] at he
    exact checkAlternatives_notUnsup e he

theorem checkDepVersion_notUnsup {m depMod : ModMetadata}
    {dep : ModDependency} {v : SemVer} :
    ∀ e ∈ checkDepVersion m depMod dep v, NotUnsup e := by
  intro e he
  unfold checkDepVersion at he
  split at he
  · exact rangeCheck_notUnsup e he
  · rcases List.mem_append.mp he with h1 | h1
    · exact rangeCheck_notUnsup e h1
    · rcases List.mem_singleton.mp h1 with rfl
      intro p fs hne; cases hne

/-- State extension along the walk: faults and the output order only grow at
    the end (and no unsupported-platform fault is ever produced by the
    walk), the path is restored, and the resolved set only grows. -/
def Ext (st st' : ResolveState) : Prop :=
  (∃ t, st'.errors = st.errors ++ t ∧ ∀ e ∈ t, NotUnsup e) ∧
  (∃ u, st'.ordered = st.ordered ++ u) ∧
  st'.path = st.path ∧
  (∀ id, id ∈ st.resolved → id ∈ st'.resolved)

theorem Ext.refl (st : ResolveState) : Ext st st :=
  ⟨⟨[], by simp, by simp⟩, ⟨[], by simp⟩, rfl, fun _ h => h⟩

theorem Ext.trans {s1 s2 s3 : ResolveState} (h1 : Ext s1 s2)
    (h2 : Ext s2 s3) : Ext s1 s3 := by
  obtain ⟨⟨t1, he1, hn1⟩, ⟨u1, ho1⟩, hp1, hr1⟩ := h1
  obtain ⟨⟨t2, he2, hn2⟩, ⟨u2, ho2⟩, hp2, hr2⟩ := h2
  refine ⟨⟨t1 ++ t2, by simp [he2, he1], ?_⟩,
    ⟨u1 ++ u2, by simp [ho2, ho1]⟩, hp2.trans hp1, fun i hi => hr2 i (hr1 i hi)⟩
  intro e he
  rcases List.mem_append.mp he with h | h
  · exact hn1 e h
  · exact hn2 e h

/-- Exhaustive case analysis of a successful `stepDep`: exactly one of the
    seven branches of the dependency-loop body applies. -/
theorem stepDep_some_elim
    {recur : ModMetadata → ResolveState → Option ResolveState}
    {mods : List ModMetadata} {m : ModMetadata} {dep : ModDependency}
    {st st' : ResolveState}
    (h : stepDep recur mods m dep st = some st') :
    (dep.mod_id ∈ pseudoIds ∧ st' = st) ∨
    (dep.mod_id ∉ pseudoIds ∧ dep.mod_id ∈ st.resolved ∧ st' = st) ∨
    (dep.mod_id ∉ pseudoIds ∧ dep.mod_id ∉ st.resolved ∧
      dep.mod_id ∈ st.unresolved ∧
      st' = { st with errors := st.errors ++
        [.CircularDependency (st.path ++ [dep.mod_id])] }) ∨
    (dep.mod_id ∉ pseudoIds ∧ dep.mod_id ∉ st.resolved ∧
      dep.mod_id ∉ st.unresolved ∧ lookupMod mods dep.mod_id = none ∧
      dep.mandatory = true ∧
      st' = { st with errors := st.errors ++
        [.MissingDependency m.mod_id m.file_name dep.mod_id] }) ∨
    (dep.mod_id ∉ pseudoIds ∧ dep.mod_id ∉ st.resolved ∧
      dep.mod_id ∉ st.unresolved ∧ lookupMod mods dep.mod_id = none ∧
      dep.mandatory = false ∧ st' = st) ∨
    (∃ depMod, dep.mod_id ∉ pseudoIds ∧ dep.mod_id ∉ st.resolved ∧
      dep.mod_id ∉ st.unresolved ∧ lookupMod mods dep.mod_id = some depMod ∧
      parseVersion depMod.version = none ∧
      st' = { st with errors := st.errors ++
        [.InvalidVersionFormat depMod.mod_id depMod.file_name
          depMod.version] }) ∨
    (∃ depMod v st2, dep.mod_id ∉ pseudoIds ∧ dep.mod_id ∉ st.resolved ∧
      dep.mod_id ∉ st.unresolved ∧ lookupMod mods dep.mod_id = some depMod ∧
      parseVersion depMod.version = some v ∧
      recur depMod
        { st with
          errors := st.errors ++ checkDepVersion m depMod dep v,
          path := st.path ++ [dep.mod_id] } = some st2 ∧
      st' = { st2 with path := st2.path.dropLast }) := by
  unfold stepDep at h
  split at h
  · rename_i hps
    exact Or.inl ⟨hps, (Option.some.inj h).symm⟩
  · rename_i hps
    split at h
    · rename_i hres
      exact Or.inr (Or.inl ⟨hps, hres, (Option.some.inj h).symm⟩)
    · rename_i hres
      split at h
      · rename_i hunr
        exact Or.inr (Or.inr (Or.inl ⟨hps, hres, hunr, (Option.some.inj h).symm⟩))
      · rename_i hunr
        split at h
        · rename_i hl
          split at h
          · rename_i hm
            exact Or.inr (Or.inr (Or.inr (Or.inl
              ⟨hps, hres, hunr, hl, hm, (Option.some.inj h).symm⟩)))
          · rename_i hm
            exact Or.inr (Or.inr (Or.inr (Or.inr (Or.inl
              ⟨hps, hres, hunr, hl, Bool.not_eq_true _ ▸ hm,
                (Option.some.inj h).symm⟩))))
        · rename_i depMod hl
          split at h
          · rename_i hv
            exact Or.inr (Or.inr (Or.inr (Or.inr (Or.inr (Or.inl
              ⟨depMod, hps, hres, hunr, hl, hv, (Option.some.inj h).symm⟩)))))
          · rename_i v hv
            split at h
            · cases h
            · rename_i st2 h2
              exact Or.inr (Or.inr (Or.inr (Or.inr (Or.inr (Or.inr
                ⟨depMod, v, st2, hps, hres, hunr, hl, hv, h2,
                  (Option.some.inj h).symm⟩)))))

/-- A length-one fault suffix extends the state without producing an
    unsupported-platform fault. -/
theorem ext_of_error_push {st : ResolveState} {e : DependencyError}
    (hne : NotUnsup e) :
    Ext st { st with errors := st.errors ++ [e] } :=
  ⟨⟨[e], rfl, by rintro x hx; rcases List.mem_singleton.mp hx with rfl; exact hne⟩,
    ⟨[], by simp⟩, rfl, fun _ hh => hh⟩

theorem stepDep_ext {recur : ModMetadata → ResolveState → Option ResolveState}
    {mods : List ModMetadata} {m : ModMetadata} {dep : ModDependency}
    {st st' : ResolveState}
    (H : ∀ m1 s1 s1', recur m1 s1 = some s1' → Ext s1 s1')
    (h : stepDep recur mods m dep st = some st') : Ext st st' := by
  rcases stepDep_some_elim h with
    ⟨_, rfl⟩ | ⟨_, _, rfl⟩ | ⟨_, _, _, rfl⟩ | ⟨_, _, _, _, _, rfl⟩ |
    ⟨_, _, _, _, _, rfl⟩ | ⟨depMod, _, _, _, _, _, rfl⟩ |
    ⟨depMod, v, st2, _, _, _, _, _, h2, rfl⟩
  · exact Ext.refl _
  · exact Ext.refl _
  · exact ext_of_error_push (by intro p fs hne; cases hne)
  · exact ext_of_error_push (by intro p fs hne; cases hne)
  · exact Ext.refl _
  · exact ext_of_error_push (by intro p fs hne; cases hne)
  · obtain ⟨⟨t, he, hn⟩, ⟨u, ho⟩, hp, hr⟩ := H _ _ _ h2
    refine ⟨⟨checkDepVersion m depMod dep v ++ t, by simp [he], ?_⟩,
      ⟨u, by simpa using ho⟩, ?_, fun i hi => hr i hi⟩
    · intro e he2
      rcases List.mem_append.mp he2 with hx | hx
      · exact checkDepVersion_notUnsup e hx
      · exact hn e hx
    · show st2.path.dropLast = st.path
      rw [hp]
      simp

theorem stepDeps_ext
    {recur : ModMetadata → ResolveState → Option ResolveState}
    {mods : List ModMetadata} {m : ModMetadata}
    (H : ∀ m1 s1 s1', recur m1 s1 = some s1' → Ext s1 s1') :
    ∀ {deps : List ModDependency} {st st' : ResolveState},
      stepDeps recur mods m deps st = some st' → Ext st st' := by
  intro deps
  induction deps with
  | nil => intro st st' h; cases h; exact Ext.refl _
  | cons dep deps ih =>
    intro st st' h
    unfold stepDeps at h
    rcases h1 : stepDep recur mods m dep st with _ | st1
    · rw [h1] at h; cases h
    · rw [h1] at h
      exact (stepDep_ext H h1).trans (ih h)

theorem resolveMod_ext {mods : List ModMetadata} :
    ∀ {fuel : Nat} {m : ModMetadata} {st st' : ResolveState},
      resolveMod mods fuel m st = some st' → Ext st st' := by
  intro fuel
  induction fuel with
  | zero => intro m st st' h; cases h
  | succ fuel ih =>
    intro m st st' h
    unfold resolveMod at h
    rcases h1 : stepDeps (resolveMod mods fuel) mods m m.dependencies
        { st with unresolved := insertSet m.mod_id st.unresolved } with _ | st1
    · rw [h1] at h; cases h
    · rw [h1] at h
      cases h
      have hx : Ext st { st with unresolved := insertSet m.mod_id st.unresolved } :=
        ⟨⟨[], by simp, by simp⟩, ⟨[], by simp⟩, rfl, fun _ hh => hh⟩
      have h2 := hx.trans (stepDeps_ext (fun m1 s1 s1' hh => ih hh) h1)
      obtain ⟨⟨t, he, hn⟩, ⟨u, ho⟩, hp, hr⟩ := h2
      exact ⟨⟨t, he, hn⟩, ⟨u ++ [m], by simp [ho]⟩, hp,
        fun i hi => mem_insertSet.mpr (Or.inr (hr i hi))⟩

/-- Extension along the top-level loop (the path is reset per walk, so only
    the error, order and resolved components extend). -/
theorem resolveAll_ext {mods : List ModMetadata} {fuel : Nat} :
    ∀ {l : List ModMetadata} {st st' : ResolveState},
      resolveAll mods fuel l st = some st' →
      (∃ t, st'.errors = st.errors ++ t ∧ ∀ e ∈ t, NotUnsup e) ∧
      (∃ u, st'.ordered = st.ordered ++ u) := by
  intro l
  induction l with
  | nil => intro st st' h; cases h; exact ⟨⟨[], by simp, by simp⟩, ⟨[], by simp⟩⟩
  | cons m rest ih =>
    intro st st' h
    unfold resolveAll at h
    split at h
    · exact ih h
    · rcases h1 : resolveMod mods fuel m
          { st with unresolved := [], path := [m.mod_id] } with _ | st1
      · rw [h1] at h; cases h
      · rw [h1] at h
        obtain ⟨⟨t1, he1, hn1⟩, ⟨u1, ho1⟩, _, _⟩ := resolveMod_ext h1
        obtain ⟨⟨t2, he2, hn2⟩, ⟨u2, ho2⟩⟩ := ih h
        refine ⟨⟨t1 ++ t2, by simp [he2, he1], ?_⟩, ⟨u1 ++ u2, by simp [ho2, ho1]⟩⟩
        intro e he
        rcases List.mem_append.mp he with hx | hx
        · exact hn1 e hx
        · exact hn2 e hx

/-- The fault list of a failed partition resolution is nonempty and contains
    no unsupported-platform fault. -/
theorem resolve_error_spec {mods : List ModMetadata}
    {es : List DependencyError}
    (h : resolve_dependencies mods = some (.error es)) :
    es ≠ [] ∧ ∀ e ∈ es, NotUnsup e := by
  unfold resolve_dependencies at h
  rcases h1 : resolveAll mods (mods.length + 1) mods initState with _ | st
  · rw [h1] at h; cases h
  · rw [h1] at h
    have h2 := Option.some.inj h
    by_cases hemp : st.errors.isEmpty
    · rw [if_pos hemp] at h2; cases h2
    · rw [if_neg hemp] at h2
      injection h2 with h3
      obtain ⟨⟨t, he, hn⟩, _⟩ := resolveAll_ext h1
      subst h3
      refine ⟨by simpa using hemp, ?_⟩
      intro e hee
      rw [he] at hee
      simpa using hn e (by simpa [initState] using hee)

/-! ## Preservation of the in-progress set, and totality -/

theorem stepDep_unres
    {recur : ModMetadata → ResolveState → Option ResolveState}
    {mods : List ModMetadata} {m : ModMetadata} {dep : ModDependency}
    {st st' : ResolveState}
    (H : ∀ m1 s1 s1', m1.mod_id ∉ s1.unresolved → recur m1 s1 = some s1' →
      s1'.unresolved = s1.unresolved)
    (h : stepDep recur mods m dep st = some st') :
    st'.unresolved = st.unresolved := by
  rcases stepDep_some_elim h with
    ⟨_, rfl⟩ | ⟨_, _, rfl⟩ | ⟨_, _, _, rfl⟩ | ⟨_, _, _, _, _, rfl⟩ |
    ⟨_, _, _, _, _, rfl⟩ | ⟨depMod, _, _, _, _, _, rfl⟩ |
    ⟨depMod, v, st2, _, _, hunr, hl, _, h2, rfl⟩
  · rfl
  · rfl
  · rfl
  · rfl
  · rfl
  · rfl
  · have hid : depMod.mod_id = dep.mod_id := (lookupMod_mem hl).2
    have := H depMod _ _ (by simpa [hid] using hunr) h2
    simpa using this

theorem stepDeps_unres
    {recur : ModMetadata → ResolveState → Option ResolveState}
    {mods : List ModMetadata} {m : ModMetadata}
    (H : ∀ m1 s1 s1', m1.mod_id ∉ s1.unresolved → recur m1 s1 = some s1' →
      s1'.unresolved = s1.unresolved) :
    ∀ {deps : List ModDependency} {st st' : ResolveState},
      stepDeps recur mods m deps st = some st' →
      st'.unresolved = st.unresolved := by
  intro deps
  induction deps with
  | nil => intro st st' h; cases h; rfl
  | cons dep deps ih =>
    intro st st' h
    unfold stepDeps at h
    rcases h1 : stepDep recur mods m dep st with _ | st1
    · rw [h1] at h; cases h
    · rw [h1] at h
      exact (ih h).trans (stepDep_unres H h1)

theorem resolveMod_unres {mods : List ModMetadata} :
    ∀ {fuel : Nat} {m : ModMetadata} {st st' : ResolveState},
      m.mod_id ∉ st.unresolved → resolveMod mods fuel m st = some st' →
      st'.unresolved = st.unresolved := by
  intro fuel
  induction fuel with
  | zero => intro m st st' _ h; cases h
  | succ fuel ih =>
    intro m st st' hm h
    unfold resolveMod at h
    rcases h1 : stepDeps (resolveMod mods fuel) mods m m.dependencies
        { st with unresolved := insertSet m.mod_id st.unresolved } with _ | st1
    · rw [h1] at h; cases h
    · rw [h1] at h
      cases h
      have h2 := stepDeps_unres (fun m1 s1 s1' hne hh => ih hne hh) h1
      show st1.unresolved.erase m.mod_id = st.unresolved
      rw [h2]
      show (insertSet m.mod_id st.unresolved).erase m.mod_id = st.unresolved
      rw [insertSet_of_not_mem hm, List.erase_cons_head]

/-- The termination measure: the number of record ids not yet on the current
    recursion path. -/
def fuelMeasure (mods : List ModMetadata) (st : ResolveState) : Nat :=
  ((mods.map (·.mod_id)).toFinset \ st.unresolved.toFinset).card

theorem stepDeps_isSome
    {recur : ModMetadata → ResolveState → Option ResolveState}
    {mods : List ModMetadata} {m : ModMetadata} {k : Nat}
    (Hsome : ∀ m1 s1, m1.mod_id ∈ (mods.map (·.mod_id)).toFinset →
      m1.mod_id ∉ s1.unresolved → fuelMeasure mods s1 ≤ k →
      (recur m1 s1).isSome)
    (Hunres : ∀ m1 s1 s1', m1.mod_id ∉ s1.unresolved →
      recur m1 s1 = some s1' → s1'.unresolved = s1.unresolved) :
    ∀ {deps : List ModDependency} {st : ResolveState},
      fuelMeasure mods st ≤ k →
      (stepDeps recur mods m deps st).isSome := by
  intro deps
  induction deps with
  | nil => intro st _; simp [stepDeps]
  | cons dep deps ih =>
    intro st hk
    unfold stepDeps
    rcases h1 : stepDep recur mods m dep st with _ | st1
    · exfalso
      unfold stepDep at h1
      split at h1
      · cases h1
      · split at h1
        · cases h1
        · split at h1
          · cases h1
          · rename_i hps hres hunr
            split at h1
            · split at h1 <;> cases h1
            · rename_i depMod hl
              split at h1
              · cases h1
              · rename_i v hv
                have hidm : depMod.mod_id = dep.mod_id := (lookupMod_mem hl).2
                have hin : depMod.mod_id ∈ (mods.map (·.mod_id)).toFinset := by
                  rw [List.mem_toFinset]
                  exact List.mem_map.mpr ⟨depMod, (lookupMod_mem hl).1, rfl⟩
                have hsome := Hsome depMod
                  { st with
                    errors := st.errors ++ checkDepVersion m depMod dep v,
                    path := st.path ++ [dep.mod_id] }
                  hin (by simpa [hidm] using hunr)
                  (by simpa [fuelMeasure] using hk)
                rcases Option.isSome_iff_exists.mp hsome with ⟨st2, h2⟩
                rw [h2] at h1
                cases h1
    · have h2 : st1.unresolved = st.unresolved :=
        stepDep_unres Hunres h1
      exact ih (by simpa [fuelMeasure, h2] using hk)

theorem resolveMod_isSome {mods : List ModMetadata} :
    ∀ {fuel : Nat} {m : ModMetadata} {st : ResolveState},
      m.mod_id ∈ (mods.map (·.mod_id)).toFinset →
      m.mod_id ∉ st.unresolved → fuelMeasure mods st ≤ fuel →
      (resolveMod mods (fuel + 1) m st).isSome := by
  intro fuel
  induction fuel with
  | zero =>
    intro m st hin hnotin hk
    exfalso
    unfold fuelMeasure at hk
    have : m.mod_id ∈ (mods.map (·.mod_id)).toFinset \ st.unresolved.toFinset :=
      Finset.mem_sdiff.mpr ⟨hin, fun hc => hnotin (List.mem_toFinset.mp hc)⟩
    have := Finset.card_pos.mpr ⟨m.mod_id, this⟩
    omega
  | succ fuel ih =>
    intro m st hin hnotin hk
    show (resolveMod mods (fuel + 1 + 1) m st).isSome
    unfold resolveMod
    have hmeas :
        fuelMeasure mods
          { st with unresolved := insertSet m.mod_id st.unresolved } ≤ fuel := by
      unfold fuelMeasure
      rw [insertSet_of_not_mem hnotin]
      have hsub :
          (mods.map (·.mod_id)).toFinset \ (m.mod_id :: st.unresolved).toFinset =
          ((mods.map (·.mod_id)).toFinset \ st.unresolved.toFinset).erase
            m.mod_id := by
        ext x
        simp only [Finset.mem_sdiff, List.mem_toFinset, List.mem_cons,
          Finset.mem_erase]
        tauto
      rw [hsub]
      have hmem : m.mod_id ∈
          (mods.map (·.mod_id)).toFinset \ st.unresolved.toFinset :=
        Finset.mem_sdiff.mpr ⟨hin, fun hc => hnotin (List.mem_toFinset.mp hc)⟩
      have := Finset.card_erase_of_mem hmem
      have hpos := Finset.card_pos.mpr ⟨m.mod_id, hmem⟩
      unfold fuelMeasure at hk
      omega
    have hsome := @stepDeps_isSome (resolveMod mods (fuel + 1)) mods m fuel
      (fun m1 s1 h1 h2 h3 => ih h1 h2 h3)
      (fun m1 s1 s1' hne hh => resolveMod_unres hne hh)
      m.dependencies
      { st with unresolved := insertSet m.mod_id st.unresolved }
      hmeas
    rcases Option.isSome_iff_exists.mp hsome with ⟨st1, h1⟩
    rw [h1]
    simp

theorem resolveAll_isSome {mods : List ModMetadata} :
    ∀ {l : List ModMetadata} {st : ResolveState}, (∀ m ∈ l, m ∈ mods) →
      (resolveAll mods (mods.length + 1) l st).isSome := by
  intro l
  induction l with
  | nil => intro st _; simp [resolveAll]
  | cons m rest ih =>
    intro st hl
    unfold resolveAll
    split
    · exact ih (fun x hx => hl x (List.mem_cons_of_mem m hx))
    · have hin : m.mod_id ∈ (mods.map (·.mod_id)).toFinset := by
        rw [List.mem_toFinset]
        exact List.mem_map.mpr ⟨m, hl m (List.mem_cons_self m rest), rfl⟩
      have hmeas : fuelMeasure mods
          { st with unresolved := [], path := [m.mod_id] } ≤ mods.length := by
        unfold fuelMeasure
        calc ((mods.map (·.mod_id)).toFinset \ ([] : List String).toFinset).card
            ≤ (mods.map (·.mod_id)).toFinset.card :=
              Finset.card_le_card (Finset.sdiff_subset)
          _ ≤ (mods.map (·.mod_id)).length := (mods.map (·.mod_id)).toFinset_card_le
          _ = mods.length := List.length_map mods _
      have hsome := resolveMod_isSome hin (by simp) hmeas
      rcases Option.isSome_iff_exists.mp hsome with ⟨st1, h1⟩
      rw [h1]
      exact ih (fun x hx => hl x (List.mem_cons_of_mem m hx))

theorem resolve_dependencies_isSome (mods : List ModMetadata) :
    (resolve_dependencies mods).isSome := by
  unfold resolve_dependencies
  have h := @resolveAll_isSome mods mods initState (fun _ hx => hx)
  rcases Option.isSome_iff_exists.mp h with ⟨st, h1⟩
  rw [h1]
  simp

theorem analyzeGroup_isSome (group : List ModMetadata) (p : Platform) :
    (analyzeGroup group p).isSome := by
  unfold analyzeGroup
  split
  · rcases Option.isSome_iff_exists.mp (resolve_dependencies_isSome group)
      with ⟨r, hr⟩
    rw [hr]
    rcases r with es | l <;> simp
  · simp

theorem analyzeGroups_isSome (mods : List ModMetadata) :
    ∀ ps : List Platform, (analyzeGroups mods ps).isSome := by
  intro ps
  induction ps with
  | nil => simp [analyzeGroups]
  | cons p ps ih =>
    unfold analyzeGroups
    rcases Option.isSome_iff_exists.mp (analyzeGroup_isSome (groupOf mods p) p)
      with ⟨⟨r1, e1⟩, h1⟩
    rcases Option.isSome_iff_exists.mp ih with ⟨⟨r2, e2⟩, h2⟩
    rw [h1, h2]
    simp

theorem groupFaults_isSome (group : List ModMetadata) (p : Platform) :
    (groupFaults group p).isSome := by
  unfold groupFaults
  split
  · rcases Option.isSome_iff_exists.mp (resolve_dependencies_isSome group)
      with ⟨r, hr⟩
    rw [hr]
    rcases r with es | l <;> simp
  · simp

theorem faultsOfPlatforms_isSome (mods : List ModMetadata) :
    ∀ ps : List Platform, (faultsOfPlatforms mods ps).isSome := by
  intro ps
  induction ps with
  | nil => simp [faultsOfPlatforms]
  | cons p ps ih =>
    unfold faultsOfPlatforms
    rcases Option.isSome_iff_exists.mp (groupFaults_isSome (groupOf mods p) p)
      with ⟨a, h1⟩
    rcases Option.isSome_iff_exists.mp ih with ⟨b, h2⟩
    rw [h1, h2]
    simp

/-! ## The dependency-ordering invariant -/

/-- Every non-pseudo dependency of `R` whose target is present in the
    partition already appears in `pre`. -/
def DepsProvided (mods : List ModMetadata) (pre : List ModMetadata)
    (R : ModMetadata) : Prop :=
  ∀ dep ∈ R.dependencies, dep.mod_id ∉ pseudoIds →
    ∀ T, lookupMod mods dep.mod_id = some T → T ∈ pre

/-- A dependency-respecting order: every record is preceded by all its
    present non-pseudo dependency targets. -/
def OrderedOK (mods : List ModMetadata) (l : List ModMetadata) : Prop :=
  ∀ pre R suf, l = pre ++ R :: suf → DepsProvided mods pre R

theorem orderedOK_nil (mods : List ModMetadata) : OrderedOK mods [] := by
  intro pre R suf h
  exact absurd h (by simp)

theorem orderedOK_append {mods : List ModMetadata} {l : List ModMetadata}
    {R : ModMetadata} (h : OrderedOK mods l) (hR : DepsProvided mods l R) :
    OrderedOK mods (l ++ [R]) := by
  intro pre R' suf heq
  rcases suf.eq_nil_or_concat with rfl | ⟨s, last, rfl⟩
  · have hlen : l.length = pre.length := by
      have := congrArg List.length heq
      simpa using this
    have := List.append_inj heq hlen
    rcases this with ⟨rfl, h2⟩
    have : R = R' := by simpa using h2
    exact this ▸ hR
  · rw [List.concat_eq_append] at heq
    have heq2 : l ++ [R] = (pre ++ R' :: s) ++ [last] := by
      rw [heq]; simp
    have hlen : l.length = (pre ++ R' :: s).length := by
      have hl2 := congrArg List.length heq2
      simp at hl2
      simp
      omega
    have := List.append_inj heq2 hlen
    exact h pre R' s this.1

/-- The walk invariant: every resolved id is represented in the output
    order, the output order stays inside the partition, and so long as no
    fault has been recorded the output order is dependency-respecting. -/
def Inv (mods : List ModMetadata) (st : ResolveState) : Prop :=
  (∀ id ∈ st.resolved, ∃ r ∈ st.ordered, r.mod_id = id) ∧
  (∀ r ∈ st.ordered, r ∈ mods) ∧
  (st.errors = [] → OrderedOK mods st.ordered)

theorem inv_initState (mods : List ModMetadata) : Inv mods initState :=
  ⟨by simp [initState], by simp [initState],
   fun _ => by simpa [initState] using orderedOK_nil mods⟩

theorem stepDep_inv {recur : ModMetadata → ResolveState → Option ResolveState}
    {mods : List ModMetadata} {m : ModMetadata} {dep : ModDependency}
    {st st' : ResolveState}
    (hN : (mods.map (·.mod_id)).Nodup)
    (HInv : ∀ m1 s1 s1', m1 ∈ mods → Inv mods s1 → recur m1 s1 = some s1' →
      Inv mods s1' ∧ m1 ∈ s1'.ordered)
    (hI : Inv mods st) (h : stepDep recur mods m dep st = some st') :
    Inv mods st' ∧
    (st'.errors = [] → dep.mod_id ∉ pseudoIds →
      ∀ T, lookupMod mods dep.mod_id = some T → T ∈ st'.ordered) := by
  rcases stepDep_some_elim h with
    ⟨hps, rfl⟩ | ⟨hps, hres, rfl⟩ | ⟨hps, hres, hunr, rfl⟩ |
    ⟨hps, hres, hunr, hl, hm, rfl⟩ | ⟨hps, hres, hunr, hl, hm, rfl⟩ |
    ⟨depMod, hps, hres, hunr, hl, hv, rfl⟩ |
    ⟨depMod, v, st2, hps, hres, hunr, hl, hv, h2, rfl⟩
  · exact ⟨hI, fun _ hnps => absurd hps hnps⟩
  · refine ⟨hI, fun _ _ T hT => ?_⟩
    obtain ⟨r, hrmem, hrid⟩ := hI.1 dep.mod_id hres
    obtain ⟨hTmem, hTid⟩ := lookupMod_mem hT
    have : r = T :=
      List.inj_on_of_nodup_map hN (hI.2.1 r hrmem) hTmem (by rw [hrid, hTid])
    exact this ▸ hrmem
  · refine ⟨⟨hI.1, hI.2.1, fun he => absurd he (by simp)⟩, fun he => ?_⟩
    exact absurd he (by simp)
  · refine ⟨⟨hI.1, hI.2.1, fun he => absurd he (by simp)⟩, fun he => ?_⟩
    exact absurd he (by simp)
  · exact ⟨hI, fun _ _ T hT => by rw [hl] at hT; cases hT⟩
  · refine ⟨⟨hI.1, hI.2.1, fun he => absurd he (by simp)⟩, fun he => ?_⟩
    exact absurd he (by simp)
  · have hdmem : depMod ∈ mods := (lookupMod_mem hl).1
    have hI1 : Inv mods
        { st with
          errors := st.errors ++ checkDepVersion m depMod dep v,
          path := st.path ++ [dep.mod_id] } := by
      refine ⟨hI.1, hI.2.1, fun he => ?_⟩
      have : st.errors = [] := (List.append_eq_nil.mp he).1
      exact hI.2.2 this
    obtain ⟨hI2, hdo⟩ := HInv depMod _ _ hdmem hI1 h2
    refine ⟨⟨hI2.1, hI2.2.1, fun he => hI2.2.2 he⟩, fun _ _ T hT => ?_⟩
    have : T = depMod := by
      rw [hl] at hT
      exact (Option.some.inj hT).symm
    exact this ▸ hdo

theorem stepDeps_inv
    {recur : ModMetadata → ResolveState → Option ResolveState}
    {mods : List ModMetadata} {m : ModMetadata}
    (hN : (mods.map (·.mod_id)).Nodup)
    (HExt : ∀ m1 s1 s1', recur m1 s1 = some s1' → Ext s1 s1')
    (HInv : ∀ m1 s1 s1', m1 ∈ mods → Inv mods s1 → recur m1 s1 = some s1' →
      Inv mods s1' ∧ m1 ∈ s1'.ordered) :
    ∀ {deps : List ModDependency} {st st' : ResolveState},
      Inv mods st → stepDeps recur mods m deps st = some st' →
      Inv mods st' ∧
      (st'.errors = [] → ∀ dep ∈ deps, dep.mod_id ∉ pseudoIds →
        ∀ T, lookupMod mods dep.mod_id = some T → T ∈ st'.ordered) := by
  intro deps
  induction deps with
  | nil =>
    intro st st' hI h
    cases h
    exact ⟨hI, fun _ dep hdep => by simp at hdep⟩
  | cons dep deps ih =>
    intro st st' hI h
    unfold stepDeps at h
    rcases h1 : stepDep recur mods m dep st with _ | st1
    · rw [h1] at h; cases h
    · rw [h1] at h
      obtain ⟨hI1, hhead⟩ := stepDep_inv hN HInv hI h1
      obtain ⟨hI2, hrest⟩ := ih hI1 h
      refine ⟨hI2, fun he d hd hnps T hT => ?_⟩
      rcases List.mem_cons.mp hd with rfl | hd2
      · have he1 : st1.errors = [] := by
          obtain ⟨⟨t, het, _⟩, _, _, _⟩ := stepDeps_ext HExt h
          rw [het] at he
          exact (List.append_eq_nil.mp he).1
        have hmem := hhead he1 hnps T hT
        obtain ⟨_, ⟨u, hou⟩, _, _⟩ := stepDeps_ext HExt h
        rw [hou]
        exact List.mem_append_left u hmem
      · exact hrest he d hd2 hnps T hT

theorem resolveMod_inv {mods : List ModMetadata}
    (hN : (mods.map (·.mod_id)).Nodup) :
    ∀ {fuel : Nat} {m : ModMetadata} {st st' : ResolveState},
      m ∈ mods → Inv mods st → resolveMod mods fuel m st = some st' →
      Inv mods st' ∧ m ∈ st'.ordered := by
  intro fuel
  induction fuel with
  | zero => intro m st st' _ _ h; cases h
  | succ fuel ih =>
    intro m st st' hm hI h
    unfold resolveMod at h
    rcases h1 : stepDeps (resolveMod mods fuel) mods m m.dependencies
        { st with unresolved := insertSet m.mod_id st.unresolved } with _ | st1
    · rw [h1] at h; cases h
    · rw [h1] at h
      cases h
      have hI0 : Inv mods
          { st with unresolved := insertSet m.mod_id st.unresolved } :=
        ⟨hI.1, hI.2.1, hI.2.2⟩
      obtain ⟨hI1, hdeps⟩ := stepDeps_inv hN
        (fun m1 s1 s1' hh => resolveMod_ext hh)
        (fun m1 s1 s1' hm1 hI1 hh => ih hm1 hI1 hh) hI0 h1
      constructor
      · refine ⟨?_, ?_, ?_⟩
        · intro id hid
          rcases mem_insertSet.mp hid with rfl | hid2
          · exact ⟨m, by simp, rfl⟩
          · obtain ⟨r, hrmem, hrid⟩ := hI1.1 id hid2
            exact ⟨r, by simp [hrmem], hrid⟩
        · intro r hr
          rcases List.mem_append.mp hr with hr2 | hr2
          · exact hI1.2.1 r hr2
          · rcases List.mem_singleton.mp hr2 with rfl
            exact hm
        · intro he
          have he1 : st1.errors = [] := he
          refine orderedOK_append (hI1.2.2 he1) ?_
          intro dep hdep hnps T hT
          exact hdeps he1 dep hdep hnps T hT
      · simp

theorem resolveAll_inv {mods : List ModMetadata}
    (hN : (mods.map (·.mod_id)).Nodup) :
    ∀ {l : List ModMetadata} {fuel : Nat} {st st' : ResolveState},
      (∀ m ∈ l, m ∈ mods) → Inv mods st →
      resolveAll mods fuel l st = some st' → Inv mods st' := by
  intro l
  induction l with
  | nil => intro fuel st st' _ hI h; cases h; exact hI
  | cons m rest ih =>
    intro fuel st st' hl hI h
    unfold resolveAll at h
    split at h
    · exact ih (fun x hx => hl x (List.mem_cons_of_mem m hx)) hI h
    · rcases h1 : resolveMod mods fuel m
          { st with unresolved := [], path := [m.mod_id] } with _ | st1
      · rw [h1] at h; cases h
      · rw [h1] at h
        have hI0 : Inv mods { st with unresolved := [], path := [m.mod_id] } :=
          ⟨hI.1, hI.2.1, hI.2.2⟩
        obtain ⟨hI1, _⟩ := resolveMod_inv hN
          (hl m (List.mem_cons_self m rest)) hI0 h1
        exact ih (fun x hx => hl x (List.mem_cons_of_mem m hx)) hI1 h

/-- A successful partition resolution is dependency-respecting and stays
    inside the partition. -/
theorem resolve_ok_ordered {mods L : List ModMetadata}
    (hN : (mods.map (·.mod_id)).Nodup)
    (h : resolve_dependencies mods = some (.ok L)) :
    OrderedOK mods L ∧ ∀ r ∈ L, r ∈ mods := by
  unfold resolve_dependencies at h
  rcases h1 : resolveAll mods (mods.length + 1) mods initState with _ | st
  · rw [h1] at h; cases h
  · rw [h1] at h
    have h2 := Option.some.inj h
    by_cases hemp : st.errors.isEmpty
    · rw [if_pos hemp] at h2
      injection h2 with h3
      have hI := resolveAll_inv hN (fun _ hx => hx) (inv_initState mods) h1
      subst h3
      exact ⟨hI.2.2 (List.isEmpty_iff.mp hemp), hI.2.1⟩
    · rw [if_neg hemp] at h2
      cases h2

/-! ## Aggregator structure lemmas -/

theorem mem_groupOf {mods : List ModMetadata} {p : Platform}
    {R : ModMetadata} : R ∈ groupOf mods p ↔ R ∈ mods ∧ R.platform = p := by
  simp [groupOf, List.mem_filter]

theorem analyze_ok_elim {mods L : List ModMetadata}
    (h : analyze_dependencies mods = some (.ok L)) :
    analyzeGroups mods (platformsOf mods) = some (L, []) := by
  unfold analyze_dependencies at h
  rcases h1 : analyzeGroups mods (platformsOf mods) with _ | ⟨r, es⟩
  · rw [h1] at h; cases h
  · rw [h1] at h
    have h2 := Option.some.inj h
    by_cases hemp : es.isEmpty
    · rw [if_pos hemp] at h2
      injection h2 with h3
      rw [h3, List.isEmpty_iff.mp hemp]
    · rw [if_neg hemp] at h2
      cases h2

theorem analyzeGroup_nil_faults {group : List ModMetadata} {p : Platform}
    {r1 : List ModMetadata}
    (h : analyzeGroup group p = some (r1, [])) :
    isResolvable p = true ∧ resolve_dependencies group = some (.ok r1) := by
  unfold analyzeGroup at h
  split at h
  · rename_i hp
    rcases h1 : resolve_dependencies group with _ | r
    · rw [h1] at h; cases h
    · rw [h1] at h
      rcases r with es | B
      · have h2 := Option.some.inj h
        injection h2 with _ h3
        subst h3
        exact absurd rfl (resolve_error_spec h1).1
      · have h2 := Option.some.inj h
        injection h2 with h3 _
        exact ⟨hp, by rw [h3]⟩
  · have h2 := Option.some.inj h
    injection h2 with _ h3
    cases h3

/-- Every record of a successful analysis is preceded by each of its
    present non-pseudo dependency targets (partition-level lookups). -/
theorem analyzeGroups_ordered {mods : List ModMetadata}
    (hN : ∀ p, ((groupOf mods p).map (·.mod_id)).Nodup) :
    ∀ {ps : List Platform} {r : List ModMetadata} {es : List DependencyError},
      analyzeGroups mods ps = some (r, es) → es = [] →
      ∀ pre R suf, r = pre ++ R :: suf →
        ∀ dep ∈ R.dependencies, dep.mod_id ∉ pseudoIds →
          ∀ T, lookupMod (groupOf mods R.platform) dep.mod_id = some T →
            T ∈ pre := by
  intro ps
  induction ps with
  | nil =>
    intro r es h _ pre R suf heq
    have h2 := Option.some.inj h
    injection h2 with h3 _
    rw [← h3] at heq
    exact absurd heq.symm (by simp)
  | cons p ps ih =>
    intro r es h hes pre R suf heq dep hdep hnps T hT
    unfold analyzeGroups at h
    rcases h1 : analyzeGroup (groupOf mods p) p with _ | ⟨r1, e1⟩
    · rw [h1] at h; cases h
    · rcases h2 : analyzeGroups mods ps with _ | ⟨r2, e2⟩
      · rw [h1, h2] at h; cases h
      · rw [h1, h2] at h
        have h3 := Option.some.inj h
        injection h3 with h4 h5
        subst h4 h5
        have he12 := List.append_eq_nil.mp hes
        rw [he12.1] at h1
        obtain ⟨hp, hres⟩ := analyzeGroup_nil_faults h1
        obtain ⟨hOK, hsub⟩ := resolve_ok_ordered (hN p) hres
        rcases List.append_eq_append_iff.mp heq with ⟨a, ha1, ha2⟩ |
          ⟨c, hc1, hc2⟩
        · have := ih h2 he12.2 a R suf ha2 dep hdep hnps T hT
          rw [ha1]
          exact List.mem_append_right r1 this
        · rcases c with _ | ⟨R1, c2⟩
          · have hr2 : r2 = [] ++ R :: suf := by simpa using hc2.symm
            have := ih h2 he12.2 [] R suf hr2 dep hdep hnps T hT
            simp at this
          · rcases List.cons.inj hc2 with ⟨rfl, hsuf⟩
            have hRmem : R ∈ groupOf mods p := hsub R (by
              rw [hc1]
              exact List.mem_append_right pre (List.mem_cons_self R c2))
            have hRp : R.platform = p := (mem_groupOf.mp hRmem).2
            have hdp := hOK pre R c2 hc1
            rw [hRp] at hT
            exact hdp dep hdep hnps T hT

/-! ## Platform-list lemmas and fault aggregation -/

theorem mem_platformsAux {q : Platform} :
    ∀ {l : List ModMetadata} {seen : List Platform},
      q ∈ platformsAux seen l ↔ q ∉ seen ∧ ∃ m ∈ l, m.platform = q := by
  intro l
  induction l with
  | nil => intro seen; simp [platformsAux]
  | cons m rest ih =>
    intro seen
    unfold platformsAux
    split
    · rename_i hseen
      rw [ih]
      constructor
      · rintro ⟨h1, x, hx, rfl⟩
        exact ⟨h1, x, List.mem_cons_of_mem m hx, rfl⟩
      · rintro ⟨h1, x, hx, rfl⟩
        rcases List.mem_cons.mp hx with rfl | hx2
        · exact absurd hseen h1
        · exact ⟨h1, x, hx2, rfl⟩
    · rename_i hseen
      constructor
      · intro h
        rcases List.mem_cons.mp h with rfl | h2
        · exact ⟨hseen, m, List.mem_cons_self m rest, rfl⟩
        · obtain ⟨h3, x, hx, rfl⟩ := ih.mp h2
          exact ⟨fun hc => h3 (List.mem_cons_of_mem _ hc), x,
            List.mem_cons_of_mem m hx, rfl⟩
      · rintro ⟨h1, x, hx, rfl⟩
        rcases List.mem_cons.mp hx with rfl | hx2
        · exact List.mem_cons_self _ _
        · by_cases hq : x.platform = m.platform
          · rw [hq]; exact List.mem_cons_self _ _
          · exact List.mem_cons_of_mem _ (ih.mpr
              ⟨by simp [hq, h1], x, hx2, rfl⟩)

theorem nodup_platformsAux :
    ∀ (l : List ModMetadata) (seen : List Platform),
      (platformsAux seen l).Nodup := by
  intro l
  induction l with
  | nil => intro seen; simp [platformsAux]
  | cons m rest ih =>
    intro seen
    unfold platformsAux
    split
    · exact ih seen
    · refine List.nodup_cons.mpr ⟨fun hc => ?_, ih _⟩
      exact (mem_platformsAux.mp hc).1 (List.mem_cons_self _ _)

theorem mem_platformsOf {mods : List ModMetadata} {q : Platform} :
    q ∈ platformsOf mods ↔ ∃ m ∈ mods, m.platform = q := by
  unfold platformsOf
  rw [mem_platformsAux]
  simp

theorem nodup_platformsOf (mods : List ModMetadata) :
    (platformsOf mods).Nodup := nodup_platformsAux mods []

theorem platformsAux_filter {p : Platform} :
    ∀ {l : List ModMetadata} {seen seen' : List Platform},
      (∀ q, q ≠ p → (q ∈ seen ↔ q ∈ seen')) →
      platformsAux seen (l.filter (fun m => !decide (m.platform = p))) =
        (platformsAux seen' l).filter (fun q => !decide (q = p)) := by
  intro l
  induction l with
  | nil => intro seen seen' _; simp [platformsAux]
  | cons m rest ih =>
    intro seen seen' hss
    by_cases hmp : m.platform = p
    · rw [List.filter_cons_of_neg (by simp [hmp])]
      simp only [platformsAux]
      by_cases hseen2 : m.platform ∈ seen'
      · rw [if_pos hseen2]
        exact ih hss
      · rw [if_neg hseen2, List.filter_cons_of_neg (by simp [hmp])]
        refine ih (fun q hq => ?_)
        rw [hss q hq]
        constructor
        · intro h; exact List.mem_cons_of_mem _ h
        · intro h
          rcases List.mem_cons.mp h with rfl | h2
          · exact absurd hmp hq
          · exact h2
    · rw [List.filter_cons_of_pos (by simp [hmp])]
      simp only [platformsAux]
      by_cases hseen : m.platform ∈ seen
      · rw [if_pos hseen, if_pos ((hss m.platform hmp).mp hseen)]
        exact ih hss
      · rw [if_neg hseen, if_neg (fun hc => hseen ((hss m.platform hmp).mpr hc)),
          List.filter_cons_of_pos (by simp [hmp])]
        congr 1
        refine ih (fun q hq => ?_)
        simp only [List.mem_cons]
        rw [hss q hq]

theorem platformsOf_filter {mods : List ModMetadata} {p : Platform} :
    platformsOf (mods.filter (fun m => !decide (m.platform = p))) =
      (platformsOf mods).filter (fun q => !decide (q = p)) :=
  platformsAux_filter (fun _ _ => Iff.rfl)

theorem groupOf_filter {mods : List ModMetadata} {p q : Platform}
    (hq : q ≠ p) :
    groupOf (mods.filter (fun m => !decide (m.platform = p))) q =
      groupOf mods q := by
  unfold groupOf
  rw [List.filter_filter]
  refine List.filter_congr (fun m _ => ?_)
  by_cases hm : m.platform = q
  · simp [hm, hq]
  · simp [hm]

theorem faultsOfPlatforms_cons_eq {mods : List ModMetadata} {p : Platform}
    {ps : List Platform} {g f : List DependencyError}
    (hg : groupFaults (groupOf mods p) p = some g)
    (hf : faultsOfPlatforms mods ps = some f) :
    faultsOfPlatforms mods (p :: ps) = some (g ++ f) := by
  unfold faultsOfPlatforms
  rw [hg, hf]

theorem faultsOfPlatforms_append {mods : List ModMetadata}
    {ps1 ps2 : List Platform} {a b : List DependencyError}
    (h1 : faultsOfPlatforms mods ps1 = some a)
    (h2 : faultsOfPlatforms mods ps2 = some b) :
    faultsOfPlatforms mods (ps1 ++ ps2) = some (a ++ b) := by
  induction ps1 generalizing a with
  | nil =>
    have h3 := Option.some.inj h1
    rw [List.nil_append, h2, ← h3]
    rfl
  | cons p ps ih =>
    unfold faultsOfPlatforms at h1
    rcases hg : groupFaults (groupOf mods p) p with _ | g
    · rw [hg] at h1; cases h1
    · rw [hg] at h1
      rcases hf : faultsOfPlatforms mods ps with _ | f
      · rw [hf] at h1; cases h1
      · rw [hf] at h1
        have h3 := Option.some.inj h1
        rw [List.cons_append, faultsOfPlatforms_cons_eq hg (ih hf), ← h3]
        simp

theorem faultsOfPlatforms_congr {mods1 mods2 : List ModMetadata} :
    ∀ {ps : List Platform}, (∀ q ∈ ps, groupOf mods1 q = groupOf mods2 q) →
      faultsOfPlatforms mods1 ps = faultsOfPlatforms mods2 ps := by
  intro ps
  induction ps with
  | nil => intro _; rfl
  | cons p ps ih =>
    intro hg
    unfold faultsOfPlatforms
    rw [hg p (List.mem_cons_self p ps),
      ih (fun q hq => hg q (List.mem_cons_of_mem p hq))]

theorem faultsOfPlatforms_no_unsup {mods : List ModMetadata} {p : Platform} :
    ∀ {ps : List Platform} {es : List DependencyError}, p ∉ ps →
      faultsOfPlatforms mods ps = some es →
      ∀ fls, DependencyError.UnsupportedPlatform p fls ∉ es := by
  intro ps
  induction ps with
  | nil =>
    intro es _ h fls
    have := Option.some.inj h
    rw [← this]
    simp
  | cons q ps ih =>
    intro es hn h fls hc
    unfold faultsOfPlatforms at h
    rcases hg : groupFaults (groupOf mods q) q with _ | g
    · rw [hg] at h; cases h
    · rw [hg] at h
      rcases hf : faultsOfPlatforms mods ps with _ | f
      · rw [hf] at h; cases h
      · rw [hf] at h
        have h3 := Option.some.inj h
        rw [← h3] at hc
        rcases List.mem_append.mp hc with hx | hx
        · unfold groupFaults at hg
          split at hg
          · rcases hr : resolve_dependencies (groupOf mods q) with _ | r
            · rw [hr] at hg; cases hg
            · rw [hr] at hg
              rcases r with es1 | B
              · have h4 := Option.some.inj hg
                rw [← h4] at hx
                exact (resolve_error_spec hr).2 _ hx p fls rfl
              · have h4 := Option.some.inj hg
                rw [← h4] at hx
                simp at hx
          · have h4 := Option.some.inj hg
            rw [← h4] at hx
            rcases List.mem_singleton.mp hx with heq
            have : p = q := by injection heq
            exact hn (this ▸ List.mem_cons_self q ps)
        · exact ih (fun hc2 => hn (List.mem_cons_of_mem q hc2)) hf fls hx

/-- An unsupported nonempty partition contributes exactly one fault, and
    removing that partition from the batch removes exactly that fault from
    the report. -/
theorem unsupported_partition {mods : List ModMetadata} {p : Platform}
    (hp : isResolvable p = false) (hne : groupOf mods p ≠ []) :
    ∃ A B, collectFaults mods =
        some (A ++ DependencyError.UnsupportedPlatform p
          ((groupOf mods p).map (·.file_name)) :: B) ∧
      (∀ fls, DependencyError.UnsupportedPlatform p fls ∉ A) ∧
      (∀ fls, DependencyError.UnsupportedPlatform p fls ∉ B) ∧
      collectFaults (mods.filter (fun m => !decide (m.platform = p))) =
        some (A ++ B) := by
  have hpmem : p ∈ platformsOf mods := by
    rw [mem_platformsOf]
    rcases List.exists_mem_of_ne_nil _ hne with ⟨x, hx⟩
    exact ⟨x, (List.mem_filter.mp hx).1, of_decide_eq_true (List.mem_filter.mp hx).2⟩
  obtain ⟨ps1, ps2, hsplit⟩ := List.append_of_mem hpmem
  have hnd : (ps1 ++ p :: ps2).Nodup := hsplit ▸ nodup_platformsOf mods
  have hps1 : p ∉ ps1 := by
    rw [List.nodup_append] at hnd
    exact fun hc => hnd.2.2 hc (List.mem_cons_self p ps2)
  have hps2 : p ∉ ps2 := by
    rw [List.nodup_append] at hnd
    exact (List.nodup_cons.mp hnd.2.1).1
  rcases Option.isSome_iff_exists.mp (faultsOfPlatforms_isSome mods ps1)
    with ⟨A, hA⟩
  rcases Option.isSome_iff_exists.mp (faultsOfPlatforms_isSome mods ps2)
    with ⟨B, hB⟩
  have hgp : groupFaults (groupOf mods p) p =
      some [DependencyError.UnsupportedPlatform p
        ((groupOf mods p).map (·.file_name))] := by
    unfold groupFaults
    rw [hp]
    simp
  have hcons : faultsOfPlatforms mods (p :: ps2) =
      some (DependencyError.UnsupportedPlatform p
        ((groupOf mods p).map (·.file_name)) :: B) := by
    unfold faultsOfPlatforms
    rw [hgp, hB]
    rfl
  refine ⟨A, B, ?_, faultsOfPlatforms_no_unsup hps1 hA,
    faultsOfPlatforms_no_unsup hps2 hB, ?_⟩
  · unfold collectFaults
    rw [hsplit]
    exact faultsOfPlatforms_append hA hcons
  · unfold collectFaults
    rw [platformsOf_filter, hsplit]
    have hf1 : ps1.filter (fun q => !decide (q = p)) = ps1 :=
      List.filter_eq_self.mpr (fun a ha => by
        simp
        exact fun hc => hps1 (hc ▸ ha))
    have hf2 : ps2.filter (fun q => !decide (q = p)) = ps2 :=
      List.filter_eq_self.mpr (fun a ha => by
        simp
        exact fun hc => hps2 (hc ▸ ha))
    have hfilter : (ps1 ++ p :: ps2).filter (fun q => !decide (q = p)) =
        ps1 ++ ps2 := by
      rw [List.filter_append, hf1, List.filter_cons_of_neg (by simp), hf2]
    rw [hfilter]
    have hcongr : faultsOfPlatforms
        (mods.filter (fun m => !decide (m.platform = p))) (ps1 ++ ps2) =
        faultsOfPlatforms mods (ps1 ++ ps2) :=
      faultsOfPlatforms_congr (fun q hq => by
        refine groupOf_filter (fun hc => ?_)
        rcases List.mem_append.mp hq with hx | hx
        · exact hps1 (hc ▸ hx)
        · exact hps2 (hc ▸ hx))
    rw [hcongr]
    exact faultsOfPlatforms_append hA hB

/-! ## Fault completeness of the aggregator -/

theorem analyzeGroup_groupFaults {group : List ModMetadata} {p : Platform}
    {r1 : List ModMetadata} {e1 : List DependencyError}
    (h : analyzeGroup group p = some (r1, e1)) :
    groupFaults group p = some e1 := by
  unfold analyzeGroup at h
  unfold groupFaults
  split at h
  · rename_i hp
    rw [hp]
    simp only [if_true]
    rcases h1 : resolve_dependencies group with _ | r
    · rw [h1] at h; cases h
    · rw [h1] at h
      rcases r with es | B
      · have h2 := Option.some.inj h
        injection h2 with _ h3
        rw [← h3]
      · have h2 := Option.some.inj h
        injection h2 with _ h3
        rw [← h3]
  · rename_i hp
    rw [if_neg hp]
    have h2 := Option.some.inj h
    injection h2 with _ h3
    rw [← h3]

theorem analyzeGroups_faults {mods : List ModMetadata} :
    ∀ {ps : List Platform} {r : List ModMetadata} {es : List DependencyError},
      analyzeGroups mods ps = some (r, es) →
      faultsOfPlatforms mods ps = some es := by
  intro ps
  induction ps with
  | nil =>
    intro r es h
    have h2 := Option.some.inj h
    injection h2 with _ h3
    rw [← h3]
    rfl
  | cons p ps ih =>
    intro r es h
    unfold analyzeGroups at h
    rcases h1 : analyzeGroup (groupOf mods p) p with _ | ⟨r1, e1⟩
    · rw [h1] at h; cases h
    · rcases h2 : analyzeGroups mods ps with _ | ⟨r2, e2⟩
      · rw [h1, h2] at h; cases h
      · rw [h1, h2] at h
        have h3 := Option.some.inj h
        injection h3 with _ h4
        rw [← h4]
        exact faultsOfPlatforms_cons_eq (analyzeGroup_groupFaults h1) (ih h2)

/-- The result of `analyze_dependencies` is `Ok` exactly when the collected
    fault list is empty, and otherwise is `Err` carrying exactly that
    (nonempty) list. -/
theorem analyze_faults_complete {mods : List ModMetadata}
    {r : Except (List DependencyError) (List ModMetadata)}
    (h : analyze_dependencies mods = some r) :
    ∃ es, collectFaults mods = some es ∧
      ((es = [] ∧ ∃ L, r = .ok L) ∨ (es ≠ [] ∧ r = .error es)) := by
  unfold analyze_dependencies at h
  rcases h1 : analyzeGroups mods (platformsOf mods) with _ | ⟨result, errs⟩
  · rw [h1] at h; cases h
  · rw [h1] at h
    have h2 := Option.some.inj h
    refine ⟨errs, analyzeGroups_faults h1, ?_⟩
    by_cases hemp : errs.isEmpty
    · rw [if_pos hemp] at h2
      exact Or.inl ⟨List.isEmpty_iff.mp hemp, result, h2.symm⟩
    · rw [if_neg hemp] at h2
      exact Or.inr ⟨fun hc => hemp (by rw [hc]; rfl), h2.symm⟩

/-! ## Per-edge version-check lemmas -/

theorem checkAlternatives_fst {v : SemVer} {m : ModMetadata} {depId : String} :
    ∀ {ss : List String},
      (checkAlternatives v m depId ss).1 =
        ss.any (fun s =>
          match vcFromStr s with
          | some c => vcMatches c v
          | none => false) := by
  intro ss
  induction ss with
  | nil => simp [checkAlternatives]
  | cons s rest ih =>
    rcases h : vcFromStr s with _ | c
    · simp only [checkAlternatives, h, List.any_cons]
      rw [ih]
      simp
    · simp only [checkAlternatives, h, List.any_cons]
      split
      · rename_i hm
        simp [hm]
      · rename_i hm
        rw [ih]
        rw [Bool.not_eq_true] at hm
        simp [hm]

/-- The `version_matched` flag equals `rangeMatched`. -/
theorem rangeCheck_fst {v : SemVer} {m : ModMetadata} {dep : ModDependency} :
    (rangeCheck v m dep).1 = rangeMatched dep v := by
  unfold rangeCheck rangeMatched
  rcases hvr : dep.version_range with s | ss
  · simp only []
    rcases hc : vcFromStr s with _ | c <;> rfl
  · simp only []
    exact checkAlternatives_fst

/-- A failing version requirement on an examined edge always appends the
    version-conflict fault (after any invalid-format faults). -/
theorem checkDepVersion_conflict {m depMod : ModMetadata}
    {dep : ModDependency} {v : SemVer}
    (hm : rangeMatched dep v = false) :
    checkDepVersion m depMod dep v =
      (rangeCheck v m dep).2 ++
        [.VersionConflict m.file_name dep.mod_id
          (requiredDisplay dep.version_range) depMod.version
          depMod.file_name] := by
  unfold checkDepVersion
  rw [rangeCheck_fst, hm]
  simp

theorem checkDepVersion_matched {m depMod : ModMetadata}
    {dep : ModDependency} {v : SemVer}
    (hm : rangeMatched dep v = true) :
    checkDepVersion m depMod dep v = (rangeCheck v m dep).2 := by
  unfold checkDepVersion
  rw [rangeCheck_fst, hm]
  simp

/-- Neither the matching loop nor the conflict fault consults the
    `mandatory` flag. -/
theorem checkDepVersion_mandatory_irrelevant (m depMod : ModMetadata)
    (did : String) (vr : DependencyVersionRange) (b1 b2 : Bool) (v : SemVer) :
    checkDepVersion m depMod ⟨did, vr, b1⟩ v =
      checkDepVersion m depMod ⟨did, vr, b2⟩ v := rfl

/-- An examined edge (target not reserved, not resolved, not in progress,
    present, with a parsable version) appends the version-check faults and
    then recurses into the target, regardless of whether the requirement
    matched. -/
theorem stepDep_examined
    {recur : ModMetadata → ResolveState → Option ResolveState}
    {mods : List ModMetadata} {m : ModMetadata} {dep : ModDependency}
    {st : ResolveState} {depMod : ModMetadata} {v : SemVer}
    (hps : dep.mod_id ∉ pseudoIds) (hres : dep.mod_id ∉ st.resolved)
    (hunr : dep.mod_id ∉ st.unresolved)
    (hl : lookupMod mods dep.mod_id = some depMod)
    (hv : parseVersion depMod.version = some v) :
    stepDep recur mods m dep st =
      Option.map (fun st2 => { st2 with path := st2.path.dropLast })
        (recur depMod
          { st with
            errors := st.errors ++ checkDepVersion m depMod dep v,
            path := st.path ++ [dep.mod_id] }) := by
  unfold stepDep
  rw [if_neg hps, if_neg hres, if_neg hunr, hl]
  simp only []
  rw [hv]
  simp only []
  rcases recur depMod
      { st with
        errors := st.errors ++ checkDepVersion m depMod dep v,
        path := st.path ++ [dep.mod_id] } with _ | st2 <;> simp

/-- A missing optional target on an examined edge is skipped without any
    fault or state change. -/
theorem stepDep_missing_optional
    {recur : ModMetadata → ResolveState → Option ResolveState}
    {mods : List ModMetadata} {m : ModMetadata} {dep : ModDependency}
    {st : ResolveState}
    (hps : dep.mod_id ∉ pseudoIds) (hunr : dep.mod_id ∉ st.unresolved)
    (hl : lookupMod mods dep.mod_id = none) (hm : dep.mandatory = false) :
    stepDep recur mods m dep st = some st := by
  unfold stepDep
  rw [if_neg hps]
  by_cases hres : dep.mod_id ∈ st.resolved
  · rw [if_pos hres]
  · rw [if_neg hres, if_neg hunr, hl]
    simp only []
    rw [hm]
    simp

/-! ## Remaining shared helpers -/

theorem analyze_dependencies_isSome (mods : List ModMetadata) :
    (analyze_dependencies mods).isSome := by
  unfold analyze_dependencies
  rcases Option.isSome_iff_exists.mp
    (analyzeGroups_isSome mods (platformsOf mods)) with ⟨⟨r, es⟩, h⟩
  rw [h]
  simp

theorem groupOf_ids_nodup {mods : List ModMetadata}
    (h : (mods.map (·.mod_id)).Nodup) (p : Platform) :
    ((groupOf mods p).map (·.mod_id)).Nodup :=
  List.Sublist.nodup (List.Sublist.map _ (List.filter_sublist mods)) h

theorem count_one_of_split {A B : List DependencyError} {f : DependencyError}
    (hA : f ∉ A) (hB : f ∉ B) : (A ++ f :: B).count f = 1 := by
  simp [List.count_append, List.count_cons, List.count_eq_zero.mpr hA,
    List.count_eq_zero.mpr hB]

/-! ## Claims -/

def w1b : ModMetadata := ⟨"b", "1.0.0", none, none, [], "b.jar", .Forge, []⟩

def w1a : ModMetadata :=
  ⟨"a", "1.0.0", none, none, [], "a.jar", .Forge,
    [⟨"b", .Single "^1.0.0", true⟩]⟩

/-- C1: whenever `analyze_dependencies` succeeds on a batch whose record
    ids are unique within each ecosystem partition, the returned ordering
    places each record after every record it depends on: for every
    record `R` of the ordering and every dependency declaration of `R`
    (mandatory or optional) whose target id is not a reserved
    pseudo-dependency and whose target record is present in `R`'s
    ecosystem partition, the target record appears at an earlier position
    than `R`. -/
theorem C1_ok_ordering_respects_dependencies
    (mods L : List ModMetadata)
    (hN : ∀ p, ((groupOf mods p).map (·.mod_id)).Nodup)
    (h : analyze_dependencies mods = some (.ok L))
    (pre : List ModMetadata) (R : ModMetadata) (suf : List ModMetadata)
    (hL : L = pre ++ R :: suf) (dep : ModDependency)
    (hdep : dep ∈ R.dependencies) (hnps : dep.mod_id ∉ pseudoIds)
    (T : ModMetadata)
    (hT : lookupMod (groupOf mods R.platform) dep.mod_id = some T) :
    T ∈ pre :=
  analyzeGroups_ordered hN (analyze_ok_elim h) rfl pre R suf hL dep hdep
    hnps T hT

/-- Witness for C1 at the two-record batch `[w1a, w1b]`, where `w1a`
    depends on `w1b`: the ordering is `[w1b, w1a]` and the target `w1b`
    appears before `w1a`. -/
theorem C1_witness : w1b ∈ [w1b] :=
  C1_ok_ordering_respects_dependencies [w1a, w1b] [w1b, w1a]
    (fun p => groupOf_ids_nodup (by decide) p) rfl [w1b] w1a []
    rfl ⟨"b", .Single "^1.0.0", true⟩ (List.mem_singleton.mpr rfl)
    (by decide) w1b rfl

def recognizedPlatforms : List Platform := [.Forge, .Fabric, .NeoForge, .Quilt]

def r2n : ModMetadata := ⟨"n2", "1.0.0", none, none, [], "n2.jar", .NeoForge, []⟩

def r2q : ModMetadata := ⟨"q2", "1.0.0", none, none, [], "q2.jar", .Quilt, []⟩

/-- Counterexample to C2: of the four recognized ecosystem tags, three —
    not two — are resolvable: a `NeoForge` partition is dispatched to the
    resolver (and here succeeds) instead of being reported unsupported,
    while only `Quilt` partitions are reported unsupported. -/
theorem C2_counterexample :
    recognizedPlatforms.filter isResolvable = [.Forge, .Fabric, .NeoForge] ∧
    (recognizedPlatforms.filter isResolvable).length ≠ 2 ∧
    analyze_dependencies [r2n] = some (.ok [r2n]) ∧
    analyze_dependencies [r2q] =
      some (.error [.UnsupportedPlatform .Quilt ["q2.jar"]]) :=
  ⟨by decide, by decide, rfl, rfl⟩

/-- C2 as amended: exactly three recognized tags (`Forge`, `Fabric`,
    `NeoForge`) are resolvable and dispatched to the resolver; every batch
    containing records of the one remaining recognized tag (`Quilt`) gets
    exactly one unsupported-ecosystem fault carrying that tag and all member
    filenames, without per-record analysis. -/
theorem C2_amended_three_resolvable :
    recognizedPlatforms.filter isResolvable = [.Forge, .Fabric, .NeoForge] ∧
    ∀ mods, groupOf mods Platform.Quilt ≠ [] →
      ∃ es, collectFaults mods = some es ∧
        es.count (.UnsupportedPlatform .Quilt
          ((groupOf mods Platform.Quilt).map (·.file_name))) = 1 := by
  refine ⟨by decide, fun mods hne => ?_⟩
  obtain ⟨A, B, hcf, hA, hB, _⟩ := unsupported_partition (by rfl) hne
  exact ⟨_, hcf, count_one_of_split (hA _) (hB _)⟩

/-- Witness for the amended C2 at the one-record Quilt batch `[r2q]`. -/
theorem C2_witness :
    ∃ es, collectFaults [r2q] = some es ∧
      es.count (.UnsupportedPlatform .Quilt
        ((groupOf [r2q] Platform.Quilt).map (·.file_name))) = 1 :=
  C2_amended_three_resolvable.2 [r2q] (by decide)

def dep3 : ModDependency := ⟨"b", .Multiple ["1.16.2", "1.16.3"], true⟩

def c3a : ModMetadata := ⟨"a", "1.0.0", none, none, [], "a.jar", .Forge, [dep3]⟩

def c3b17 : ModMetadata := ⟨"b", "1.17.0", none, none, [], "b.jar", .Forge, []⟩

def c3b16 : ModMetadata := ⟨"b", "1.16.3", none, none, [], "b.jar", .Forge, []⟩

/-- Counterexample to C3: against a present target of version "1.17.0",
    the disjunctive requirement `["1.16.2","1.16.3"]` raises no
    version-conflict fault — the batch resolves cleanly with an empty fault
    collection, because the bare alternative "1.16.2" is a caret
    requirement that admits "1.17.0". -/
theorem C3_counterexample :
    analyze_dependencies [c3a, c3b17] = some (.ok [c3b17, c3a]) ∧
    collectFaults [c3a, c3b17] = some [] ∧
    rangeMatched dep3 ⟨1, 17, 0, [], []⟩ = true := ⟨rfl, rfl, rfl⟩

/-- C3 as amended: the disjunctive requirement `["1.16.2","1.16.3"]`
    accepts target version "1.16.3" (no version-conflict fault), and also
    accepts "1.17.0", because a bare alternative is interpreted by the
    semver requirement grammar as a caret requirement; no conflict fault is
    emitted in either case. -/
theorem C3_amended_bare_is_caret :
    rangeMatched dep3 ⟨1, 16, 3, [], []⟩ = true ∧
    rangeMatched dep3 ⟨1, 17, 0, [], []⟩ = true ∧
    parseVersion "1.16.3" = some ⟨1, 16, 3, [], []⟩ ∧
    parseVersion "1.17.0" = some ⟨1, 17, 0, [], []⟩ ∧
    analyze_dependencies [c3a, c3b16] = some (.ok [c3b16, c3a]) ∧
    analyze_dependencies [c3a, c3b17] = some (.ok [c3b17, c3a]) :=
  ⟨rfl, rfl, rfl, rfl, rfl, rfl⟩

def p4a : ModMetadata :=
  ⟨"a", "1.0.0", none, none, [], "a.jar", .Forge, [⟨"b", .Single "[", true⟩]⟩

def p4b : ModMetadata := ⟨"b", "1.0.0", none, none, [], "b.jar", .Forge, []⟩

/-- C4 failing input: on the batch `[p4a, p4b]` the walk examines the edge
    `a → b` (target id not reserved, target present with a parsable
    version, not resolved or in progress) and evaluates its requirement
    `"["` — an input on which the Rust `VersionConstraint::from_str`
    panics at the `s[1..s.len()-1]` slice after `semver::VersionReq`
    parsing fails, aborting the process, so `analyze_dependencies` is not
    a total function.  The panic-collapsed embedding instead reaches a
    two-fault report here, which shows the aborting evaluation is
    reached. -/
theorem C4_panic_input_reached :
    vcFromStrPanics "[" = true ∧
    vcFromStr "[" = none ∧
    ("b" ∉ pseudoIds) ∧
    lookupMod [p4a, p4b] "b" = some p4b ∧
    parseVersion p4b.version = some ⟨1, 0, 0, [], []⟩ ∧
    analyze_dependencies [p4a, p4b] =
      some (.error
        [.InvalidVersionFormat "b" "a.jar" "[",
         .VersionConflict "a.jar" "b" "[" "1.0.0" "b.jar"]) :=
  ⟨rfl, rfl, by decide, rfl, rfl, rfl⟩

def p5a : ModMetadata :=
  ⟨"a5", "1.0.0", none, none, [], "a5.jar", .Forge,
    [⟨"b5", .Single "(", true⟩]⟩

def p5b : ModMetadata := ⟨"b5", "1.0.0", none, none, [], "b5.jar", .Forge, []⟩

/-- C5 failing input: on the batch `[p5a, p5b]` the walk reaches the
    evaluation of the requirement `"("`, on which the Rust
    `VersionConstraint::from_str` panics at the `s[1..s.len()-1]` slice —
    a process-fatal abort that produces no report at all, contradicting
    the claim that `analyze` always returns a complete answer and never a
    partial or aborted result.  The panic-collapsed embedding instead
    returns a complete two-fault report here, which shows the aborting
    evaluation is reached. -/
theorem C5_panic_input_reached :
    vcFromStrPanics "(" = true ∧
    vcFromStr "(" = none ∧
    ("b5" ∉ pseudoIds) ∧
    lookupMod [p5a, p5b] "b5" = some p5b ∧
    parseVersion p5b.version = some ⟨1, 0, 0, [], []⟩ ∧
    collectFaults [p5a, p5b] =
      some [.InvalidVersionFormat "b5" "a5.jar" "(",
            .VersionConflict "a5.jar" "b5" "(" "1.0.0" "b5.jar"] ∧
    analyze_dependencies [p5a, p5b] =
      some (.error
        [.InvalidVersionFormat "b5" "a5.jar" "(",
         .VersionConflict "a5.jar" "b5" "(" "1.0.0" "b5.jar"]) :=
  ⟨rfl, rfl, by decide, rfl, rfl, rfl, rfl⟩

def dep6 : ModDependency := ⟨"c", .Single "=1.0.0", false⟩

def c6c : ModMetadata := ⟨"c", "2.0.0", none, none, [], "c.jar", .Forge, []⟩

def c6a : ModMetadata := ⟨"a", "1.0.0", none, none, [], "a.jar", .Forge, [dep6]⟩

/-- Counterexample to C6: `c6a` declares a present optional dependency on
    `c6c` whose version "2.0.0" fails the requirement "=1.0.0", yet the
    batch `[c6c, c6a]` resolves with no fault at all: the target was
    already resolved when the edge was examined, so its version check was
    skipped. -/
theorem C6_counterexample :
    analyze_dependencies [c6c, c6a] = some (.ok [c6c, c6a]) ∧
    collectFaults [c6c, c6a] = some [] ∧
    dep6.mandatory = false ∧
    lookupMod [c6c, c6a] dep6.mod_id = some c6c ∧
    parseVersion c6c.version = some ⟨2, 0, 0, [], []⟩ ∧
    rangeMatched dep6 ⟨2, 0, 0, [], []⟩ = false :=
  ⟨rfl, rfl, rfl, rfl, rfl, rfl⟩

/-- C6 as amended: for a dependency declaration with mandatory flag false,
    a missing target (not reserved, not in progress) is skipped with no
    fault and no state change; and when the edge's version check runs — the
    target has not already been fully resolved when the edge is examined —
    its outcome is independent of the mandatory flag, with a
    version-conflict fault emitted on failure exactly as for a mandatory
    dependency (an already-resolved target is skipped without version
    checking, equally for mandatory and optional edges). -/
theorem C6_amended_optional_rules :
    (∀ (recur : ModMetadata → ResolveState → Option ResolveState)
       (mods : List ModMetadata) (m : ModMetadata) (dep : ModDependency)
       (st : ResolveState), dep.mod_id ∉ pseudoIds →
       dep.mod_id ∉ st.unresolved → lookupMod mods dep.mod_id = none →
       dep.mandatory = false → stepDep recur mods m dep st = some st) ∧
    (∀ (m depMod : ModMetadata) (did : String)
       (vr : DependencyVersionRange) (b1 b2 : Bool) (v : SemVer),
       checkDepVersion m depMod ⟨did, vr, b1⟩ v =
         checkDepVersion m depMod ⟨did, vr, b2⟩ v) ∧
    (∀ (m depMod : ModMetadata) (dep : ModDependency) (v : SemVer),
       rangeMatched dep v = false →
       DependencyError.VersionConflict m.file_name dep.mod_id
           (requiredDisplay dep.version_range) depMod.version
           depMod.file_name
         ∈ checkDepVersion m depMod dep v) := by
  refine ⟨fun recur mods m dep st hps hunr hl hm =>
    stepDep_missing_optional hps hunr hl hm,
    fun m depMod did vr b1 b2 v =>
      checkDepVersion_mandatory_irrelevant m depMod did vr b1 b2 v,
    fun m depMod dep v hm => ?_⟩
  rw [checkDepVersion_conflict hm]
  exact List.mem_append_right _ (List.mem_singleton.mpr rfl)

def w6m : ModMetadata :=
  ⟨"a6", "1.0.0", none, none, [], "a6.jar", .Forge,
    [⟨"zz", .Single "^1.0.0", false⟩]⟩

/-- Witness for the amended C6: a concrete missing optional edge is skipped
    silently, and a concrete present-but-failing optional edge carries a
    version-conflict fault. -/
theorem C6_witness :
    stepDep (resolveMod [w6m] 1) [w6m] w6m ⟨"zz", .Single "^1.0.0", false⟩
        initState = some initState ∧
    DependencyError.VersionConflict c6a.file_name dep6.mod_id
        (requiredDisplay dep6.version_range) c6c.version c6c.file_name
      ∈ checkDepVersion c6a c6c dep6 ⟨2, 0, 0, [], []⟩ :=
  ⟨C6_amended_optional_rules.1 (resolveMod [w6m] 1) [w6m] w6m
      ⟨"zz", .Single "^1.0.0", false⟩ initState (by decide) (by decide)
      rfl rfl,
    C6_amended_optional_rules.2.2 c6a c6c dep6 ⟨2, 0, 0, [], []⟩ rfl⟩

def dep7 : ModDependency := ⟨"b", .Single "=1.0.0", true⟩

def c7a : ModMetadata := ⟨"a", "1.0.0", none, none, [], "a.jar", .Forge, [dep7]⟩

def c7b : ModMetadata :=
  ⟨"b", "2.0.0", none, none, [], "b.jar", .Forge,
    [⟨"zz", .Single "^1.0.0", true⟩]⟩

/-- C7: on an examined edge whose requirement does not match the target's
    parsed version, the walk records a version-conflict fault for the edge
    and nevertheless still recurses into the target afterward (the step
    equals the recursive walk of the target applied to the state carrying
    the freshly recorded faults), so faults reachable only through that
    target are still discovered in the same pass. -/
theorem C7_conflict_still_recurses
    (mods : List ModMetadata) (fuel : Nat) (m depMod : ModMetadata)
    (dep : ModDependency) (st : ResolveState) (v : SemVer)
    (hps : dep.mod_id ∉ pseudoIds) (hres : dep.mod_id ∉ st.resolved)
    (hunr : dep.mod_id ∉ st.unresolved)
    (hl : lookupMod mods dep.mod_id = some depMod)
    (hv : parseVersion depMod.version = some v)
    (hm : rangeMatched dep v = false) :
    DependencyError.VersionConflict m.file_name dep.mod_id
        (requiredDisplay dep.version_range) depMod.version depMod.file_name
      ∈ checkDepVersion m depMod dep v ∧
    stepDep (resolveMod mods fuel) mods m dep st =
      Option.map (fun st2 => { st2 with path := st2.path.dropLast })
        (resolveMod mods fuel depMod
          { st with
            errors := st.errors ++ checkDepVersion m depMod dep v,
            path := st.path ++ [dep.mod_id] }) := by
  constructor
  · rw [checkDepVersion_conflict hm]
    exact List.mem_append_right _ (List.mem_singleton.mpr rfl)
  · exact stepDep_examined hps hres hunr hl hv

/-- Witness for C7 at a concrete failing mandatory edge (`c7a` requires
    `=1.0.0` of `c7b`, which has version "2.0.0"). -/
theorem C7_witness :
    DependencyError.VersionConflict "a.jar" "b" "=1.0.0" "2.0.0" "b.jar" ∈
      checkDepVersion c7a c7b dep7 ⟨2, 0, 0, [], []⟩ :=
  (C7_conflict_still_recurses [c7a, c7b] 1 c7a c7b dep7 initState
    ⟨2, 0, 0, [], []⟩ (by decide) (by decide) (by decide) rfl rfl rfl).1

/-- C8: for every batch containing a partition of exactly three records
    tagged with an unsupported ecosystem, the fault report contains the
    unsupported-ecosystem fault for that partition exactly once, carrying
    the tag and all three member filenames; and removing that partition
    from the batch leaves every other partition's faults unchanged, so the
    partition's presence cannot block a sibling resolvable partition from
    succeeding. -/
theorem C8_unsupported_partition_isolated
    (mods : List ModMetadata) (p : Platform)
    (hp : isResolvable p = false) (h3 : (groupOf mods p).length = 3) :
    ∃ A B, collectFaults mods =
        some (A ++ DependencyError.UnsupportedPlatform p
          ((groupOf mods p).map (·.file_name)) :: B) ∧
      ((groupOf mods p).map (·.file_name)).length = 3 ∧
      (A ++ DependencyError.UnsupportedPlatform p
          ((groupOf mods p).map (·.file_name)) :: B).count
        (DependencyError.UnsupportedPlatform p
          ((groupOf mods p).map (·.file_name))) = 1 ∧
      collectFaults (mods.filter (fun m => !decide (m.platform = p))) =
        some (A ++ B) := by
  have hne : groupOf mods p ≠ [] := by
    intro hc
    rw [hc] at h3
    cases h3
  obtain ⟨A, B, hcf, hA, hB, hrest⟩ := unsupported_partition hp hne
  exact ⟨A, B, hcf, by rw [List.length_map, h3],
    count_one_of_split (hA _) (hB _), hrest⟩

def u8a : ModMetadata := ⟨"u8a", "1.0.0", none, none, [], "u8a.jar", .Quilt, []⟩

def u8b : ModMetadata := ⟨"u8b", "1.0.0", none, none, [], "u8b.jar", .Quilt, []⟩

def u8c : ModMetadata := ⟨"u8c", "1.0.0", none, none, [], "u8c.jar", .Quilt, []⟩

def f8 : ModMetadata := ⟨"f8", "1.0.0", none, none, [], "f8.jar", .Forge, []⟩

/-- Witness for C8 at a batch of three Quilt records and one Forge
    sibling. -/
theorem C8_witness :
    ∃ A B, collectFaults [u8a, u8b, u8c, f8] =
        some (A ++ DependencyError.UnsupportedPlatform .Quilt
          ((groupOf [u8a, u8b, u8c, f8] Platform.Quilt).map
            (·.file_name)) :: B) ∧
      ((groupOf [u8a, u8b, u8c, f8] Platform.Quilt).map
        (·.file_name)).length = 3 ∧
      (A ++ DependencyError.UnsupportedPlatform .Quilt
          ((groupOf [u8a, u8b, u8c, f8] Platform.Quilt).map
            (·.file_name)) :: B).count
        (DependencyError.UnsupportedPlatform .Quilt
          ((groupOf [u8a, u8b, u8c, f8] Platform.Quilt).map
            (·.file_name))) = 1 ∧
      collectFaults ([u8a, u8b, u8c, f8].filter
          (fun m => !decide (m.platform = Platform.Quilt))) =
        some (A ++ B) :=
  C8_unsupported_partition_isolated [u8a, u8b, u8c, f8] .Quilt rfl rfl

def v102f : SemVer := ⟨1, 0, 2, [.alpha "f"], []⟩

def c9lo : VersionConstraint := .Bracketed (.Inclusive v102f) .Unbounded

def c9rng : VersionConstraint :=
  .Bracketed (.Exclusive ⟨1, 0, 0, [], []⟩) (.Inclusive ⟨2, 0, 0, [], []⟩)

/-- C9: the bracketed constraint "[1.0.2-f,)" parses (square bracket
    inclusive, empty upper bound unbounded) and matches "1.0.2-f" and
    "1.0.3" while rejecting "1.0.1"; the bracketed constraint
    "(1.0.0, 2.0.0]" parses (parenthesis exclusive, bracket inclusive) and
    matches "2.0.0" while rejecting "1.0.0" and "2.0.1". -/
theorem C9_bracket_semantics :
    vcFromStr "[1.0.2-f,)" = some c9lo ∧
    parseVersion "1.0.2-f" = some v102f ∧
    vcMatches c9lo v102f = true ∧
    parseVersion "1.0.3" = some ⟨1, 0, 3, [], []⟩ ∧
    vcMatches c9lo ⟨1, 0, 3, [], []⟩ = true ∧
    vcMatches c9lo ⟨1, 0, 1, [], []⟩ = false ∧
    vcFromStr "(1.0.0, 2.0.0]" = some c9rng ∧
    vcMatches c9rng ⟨2, 0, 0, [], []⟩ = true ∧
    vcMatches c9rng ⟨1, 0, 0, [], []⟩ = false ∧
    vcMatches c9rng ⟨2, 0, 1, [], []⟩ = false :=
  ⟨rfl, rfl, rfl, rfl, rfl, rfl, rfl, rfl, rfl, rfl⟩

def dep10 : ModDependency := ⟨"b", .Single "not-a-range", true⟩

def c10a : ModMetadata :=
  ⟨"a", "1.0.0", none, none, [], "a.jar", .Forge, [dep10]⟩

def c10b : ModMetadata := ⟨"b", "1.0.0", none, none, [], "b.jar", .Forge, []⟩

/-- Counterexample to C10: `c10a`'s edge to the present, parsable-version
    target `c10b` carries the requirement "not-a-range", which parses in
    neither grammar — yet the batch `[c10b, c10a]` produces no fault at
    all: the target was already resolved when the edge was examined, so the
    requirement was never evaluated. -/
theorem C10_counterexample :
    analyze_dependencies [c10b, c10a] = some (.ok [c10b, c10a]) ∧
    collectFaults [c10b, c10a] = some [] ∧
    vcFromStr "not-a-range" = none ∧
    lookupMod [c10b, c10a] dep10.mod_id = some c10b ∧
    parseVersion c10b.version = some ⟨1, 0, 0, [], []⟩ :=
  ⟨rfl, rfl, rfl, rfl, rfl⟩

/-- C10 as amended: on an examined edge (target id not reserved, target
    not already resolved and not in progress when the edge is reached)
    whose single range expression parses in neither grammar, while the
    target record is present with a parsable version, resolution emits
    exactly two faults for that one edge — an invalid-version-format fault
    naming the expression, then a version-conflict fault whose
    required-range text is that same expression — and then still recurses
    into the target. -/
theorem C10_amended_double_fault
    (mods : List ModMetadata) (fuel : Nat) (m depMod : ModMetadata)
    (dep : ModDependency) (st : ResolveState) (v : SemVer) (s : String)
    (hrange : dep.version_range = .Single s) (hbad : vcFromStr s = none)
    (hps : dep.mod_id ∉ pseudoIds) (hres : dep.mod_id ∉ st.resolved)
    (hunr : dep.mod_id ∉ st.unresolved)
    (hl : lookupMod mods dep.mod_id = some depMod)
    (hv : parseVersion depMod.version = some v) :
    checkDepVersion m depMod dep v =
      [.InvalidVersionFormat dep.mod_id m.file_name s,
       .VersionConflict m.file_name dep.mod_id s depMod.version
         depMod.file_name] ∧
    stepDep (resolveMod mods fuel) mods m dep st =
      Option.map (fun st2 => { st2 with path := st2.path.dropLast })
        (resolveMod mods fuel depMod
          { st with
            errors := st.errors ++ checkDepVersion m depMod dep v,
            path := st.path ++ [dep.mod_id] }) := by
  have hm : rangeMatched dep v = false := by
    unfold rangeMatched
    rw [hrange]
    simp only []
    rw [hbad]
  constructor
  · rw [checkDepVersion_conflict hm]
    have hrc : rangeCheck v m dep =
        (false, [.InvalidVersionFormat dep.mod_id m.file_name s]) := by
      unfold rangeCheck
      rw [hrange]
      simp only []
      rw [hbad]
    rw [hrc]
    have hrd : requiredDisplay dep.version_range = s := by
      rw [hrange]
      rfl
    rw [hrd]
    rfl
  · exact stepDep_examined hps hres hunr hl hv

/-- Witness for the amended C10 at the concrete unparsable requirement
    "not-a-range". -/
theorem C10_witness :
    checkDepVersion c10a c10b dep10 ⟨1, 0, 0, [], []⟩ =
      [.InvalidVersionFormat "b" "a.jar" "not-a-range",
       .VersionConflict "a.jar" "b" "not-a-range" "1.0.0" "b.jar"] :=
  (C10_amended_double_fault [c10a, c10b] 1 c10a c10b dep10 initState
    ⟨1, 0, 0, [], []⟩ "not-a-range" rfl rfl (by decide) (by decide)
    (by decide) rfl rfl).1

end Mmod
